import Mathlib

/-!
# fatedier/golib: stream crypto, buffer pool and proxy dialer

A shallow embedding of `crypto/aead_writer.go`, `crypto/aead_reader.go`,
`pool/buf.go` and `net/dial/proxy.go`.

Conventions
* a Go `[]byte` value is a `List Nat` whose entries are below 256; byte
  arithmetic is written with an explicit `% 256`;
* a Go `int` length is a `Nat`;
* `error` results are `Option Error` (`none` is Go's `nil`).
-/

namespace Golib

/-- The contents of a Go `[]byte`. -/
abbrev Bytes := List Nat

/-- Every entry is a byte value. -/
def isBytes (b : Bytes) : Prop := ∀ x ∈ b, x < 256

instance (b : Bytes) : Decidable (isBytes b) := by
  unfold isBytes; infer_instance

/-- Go error values that occur in the embedded code. `other` stands for any
error produced by a collaborator (cipher, transport, URL parser). -/
inductive Error where
  | EOF
  | ErrUnexpectedEOF
  | ErrShortWrite
  | other (code : Nat)
  | message (text : String)
  deriving DecidableEq, Repr

/-! ## crypto/aead_writer.go : BytesIncLittleEndian -/

/-- The loop of `BytesIncLittleEndian` started at index `i`, given `b[i:]`:
`b[i]++` wraps modulo 256 and the loop goes on only when the byte became 0. -/
def BytesIncLittleEndian : Bytes → Bytes
  | [] => []
  | x :: xs =>
    let x1 := (x + 1) % 256
    if x1 ≠ 0 then x1 :: xs else x1 :: BytesIncLittleEndian xs

/-- A byte sequence read as an unsigned little-endian integer. -/
def leValue : Bytes → Nat
  | [] => 0
  | x :: xs => x + 256 * leValue xs

/-! ## pool/buf.go -/

/-- A Go `[]byte` slice value as the pool handles it: `data` is the backing
storage from the slice's first element up to its capacity, `len` its length. -/
structure Buf where
  data : Bytes
  len : Nat
  deriving DecidableEq, Repr

/-- Go's `cap(buf)`. -/
def Buf.cap (b : Buf) : Nat := b.data.length

/-- The `len(buf)` visible bytes of a slice. -/
def Buf.bytes (b : Buf) : Bytes := b.data.take b.len

/-- Go's `make([]byte, size)`: zeroed, length and capacity `size`. -/
def makeBuf (size : Nat) : Buf := { data := List.replicate size 0, len := size }

/-- The items currently held by one `sync.Pool`. -/
abbrev SyncPool := List Buf

/-- `sync.Pool.Get` without a `New` function: the runtime hands out any held
item, or nil. `pick` is the runtime's choice: `none` or an index that misses
is nil, `some i` takes the `i`-th held item out of the pool. -/
def SyncPool.Get (p : SyncPool) (pick : Option Nat) : Option Buf × SyncPool :=
  match pick with
  | none => (none, p)
  | some i =>
    match p.get? i with
    | none => (none, p)
    | some b => (some b, p.eraseIdx i)

/-- `sync.Pool.Put`. -/
def SyncPool.Put (p : SyncPool) (b : Buf) : SyncPool := b :: p

/-- The five package-level pools of `pool/buf.go`. -/
structure Pools where
  bufPool16k : SyncPool
  bufPool5k : SyncPool
  bufPool2k : SyncPool
  bufPool1k : SyncPool
  bufPool : SyncPool
  deriving DecidableEq, Repr

/-- The first half of `GetBuf`: the `switch` that calls `Get` on one pool.
Returns `x` and the pools afterwards. -/
def GetBuf.take (ps : Pools) (pick : Option Nat) (size : Nat) : Option Buf × Pools :=
  if size ≥ 16 * 1024 then
    ((ps.bufPool16k.Get pick).1, { ps with bufPool16k := (ps.bufPool16k.Get pick).2 })
  else if size ≥ 5 * 1024 then
    ((ps.bufPool5k.Get pick).1, { ps with bufPool5k := (ps.bufPool5k.Get pick).2 })
  else if size ≥ 2 * 1024 then
    ((ps.bufPool2k.Get pick).1, { ps with bufPool2k := (ps.bufPool2k.Get pick).2 })
  else if size ≥ 1 * 1024 then
    ((ps.bufPool1k.Get pick).1, { ps with bufPool1k := (ps.bufPool1k.Get pick).2 })
  else
    ((ps.bufPool.Get pick).1, { ps with bufPool := (ps.bufPool.Get pick).2 })

/-- `GetBuf(size)`: the buffer returned and the pools afterwards. A recycled
buffer whose capacity is too small is dropped and a fresh one is made. -/
def GetBuf (ps : Pools) (pick : Option Nat) (size : Nat) : Buf × Pools :=
  match (GetBuf.take ps pick size).1 with
  | none => (makeBuf size, (GetBuf.take ps pick size).2)
  | some buf =>
    if buf.cap < size then (makeBuf size, (GetBuf.take ps pick size).2)
    else ({ buf with len := size }, (GetBuf.take ps pick size).2)

/-- `PutBuf(buf)`: files the slice under the tier of its capacity. -/
def PutBuf (ps : Pools) (buf : Buf) : Pools :=
  let size := buf.cap
  if size ≥ 16 * 1024 then { ps with bufPool16k := ps.bufPool16k.Put buf }
  else if size ≥ 5 * 1024 then { ps with bufPool5k := ps.bufPool5k.Put buf }
  else if size ≥ 2 * 1024 then { ps with bufPool2k := ps.bufPool2k.Put buf }
  else if size ≥ 1 * 1024 then { ps with bufPool1k := ps.bufPool1k.Put buf }
  else { ps with bufPool := ps.bufPool.Put buf }

/-- The pools together with the choices the runtime will make at the coming
`sync.Pool.Get` calls (nil once the list is used up). -/
structure PoolEnv where
  pools : Pools
  picks : List (Option Nat)
  deriving DecidableEq, Repr

/-- `pool.GetBuf(size)` as a step on the environment. -/
def PoolEnv.GetBuf (env : PoolEnv) (size : Nat) : Buf × PoolEnv :=
  ((Golib.GetBuf env.pools env.picks.head?.join size).1,
   { pools := (Golib.GetBuf env.pools env.picks.head?.join size).2, picks := env.picks.tail })

/-- `pool.PutBuf(buf)` as a step on the environment. -/
def PoolEnv.PutBuf (env : PoolEnv) (buf : Buf) : PoolEnv :=
  { env with pools := Golib.PutBuf env.pools buf }

/-! ## crypto/cipher.AEAD and io.Writer

Both are standard-library interfaces whose implementation the caller supplies;
they are parameters of the embedding. -/

/-- A `cipher.AEAD` value. `Seal nonce plaintext additionalData` is the byte
sequence that Go's `Seal(dst, nonce, plaintext, additionalData)` appends to
`dst`; `Open nonce ciphertext additionalData` is what `Open` appends to its
`dst`, or the error it returns. -/
structure AEAD where
  NonceSize : Nat
  Overhead : Nat
  Seal : Bytes → Bytes → Bytes → Bytes
  Open : Bytes → Bytes → Bytes → Except Error Bytes

/-- The seal operation appends exactly `Overhead` bytes to the plaintext
length (with no associated data, as the stream code calls it). -/
def AEAD.FixedOverhead (S : AEAD) : Prop :=
  ∀ nonce p, (S.Seal nonce p []).length = p.length + S.Overhead

/-- `Open` inverts `Seal` under the same nonce. -/
def AEAD.OpenInvertsSeal (S : AEAD) : Prop :=
  ∀ nonce p, S.Open nonce (S.Seal nonce p []) [] = Except.ok p

/-- An `io.Writer` over a sink state `σ`: `Write` returns the new state, the
number of bytes accepted and the error. -/
abbrev IoWriter (σ : Type) := σ → Bytes → σ × Nat × Option Error

/-- A sink that accepts every write in full and records each call. -/
def recordingSink : IoWriter (List Bytes) := fun log c => (log ++ [c], c.length, none)

/-- A sink that drops the last byte of every non-empty write and reports no
error. -/
def shortSink : IoWriter (List Bytes) :=
  fun log c => (log ++ [c.take (c.length - 1)], c.length - 1, none)

/-- A sink whose every write fails with error `e`, accepting nothing. -/
def failingSink (e : Error) : IoWriter (List Bytes) := fun log _ => (log, 0, some e)

/-! ## crypto/aead_writer.go -/

/-- The constant `AeadMaxTextLength = (1 << 14) - 1`. -/
def AeadMaxTextLength : Nat := (1 <<< 14) - 1

/-- The struct `AeadWriter`; `sink` is the state behind the `io.Writer` `W`. -/
structure AeadWriter (σ : Type) where
  S : AEAD
  W : IoWriter σ
  sink : σ
  nonce : Bytes

/-- `NewAeadWriter`: the nonce is `make([]byte, S.NonceSize())`. -/
def NewAeadWriter {σ : Type} (S : AEAD) (W : IoWriter σ) (sink : σ) : AeadWriter σ :=
  { S := S, W := W, sink := sink, nonce := List.replicate S.NonceSize 0 }

/-- What a call of `write` leaves behind: the results `(n, err)`, the writer
and the buffer pools. -/
structure WriteResult (σ : Type) where
  n : Nat
  err : Option Error
  w : AeadWriter σ
  env : PoolEnv

/-- Storing `out` into the storage of `c` from index `off` on. -/
def Buf.writeAt (c : Buf) (off : Nat) (out : Bytes) : Buf :=
  { c with data := c.data.take off ++ out ++ c.data.drop (off + out.length) }

/-- The effect on `c` of `append(c[off:off], out...)` when the returned slice
is discarded: the bytes land in the storage of `c` if they fit below its
capacity; otherwise Go appends into a new array and `c` is untouched. -/
def Buf.appendAt (c : Buf) (off : Nat) (out : Bytes) : Buf :=
  if off + out.length ≤ c.cap then c.writeAt off out else c

/-- The two bytes `binary.BigEndian.PutUint16` stores for a `uint16` value. -/
def PutUint16 (v : Nat) : Bytes := [(v / 256) % 256, v % 256]

/-- Lines 48-64 of `write`: seal the header and the text of one chunk into a
pooled buffer and hand it to the sink. `src` is the text left after the split
and `nBase` the count returned by the recursive call. -/
def AeadWriter.writeChunk {σ : Type} (w : AeadWriter σ) (env : PoolEnv) (nBase : Nat)
    (src : Bytes) : WriteResult σ :=
  -- c := pool.GetBuf(2 + w.S.Overhead() + len(src) + w.S.Overhead())
  let g := env.GetBuf (2 + w.S.Overhead + src.length + w.S.Overhead)
  -- binary.BigEndian.PutUint16(c[:2], uint16(len(src)))
  let c1 := g.1.writeAt 0 (PutUint16 (src.length % 65536))
  -- w.S.Seal(c[:0], w.nonce, c[:2], nil)
  let c2 := c1.appendAt 0 (w.S.Seal w.nonce (c1.data.take 2) [])
  let nonce1 := BytesIncLittleEndian w.nonce
  -- w.S.Seal(c[2+w.S.Overhead():2+w.S.Overhead()], w.nonce, src, nil)
  let c3 := c2.appendAt (2 + w.S.Overhead) (w.S.Seal nonce1 src [])
  let nonce2 := BytesIncLittleEndian nonce1
  -- nWrite, err := w.W.Write(c)
  let res := w.W w.sink c3.bytes
  let _err : Option Error :=
    if res.2.1 ≠ c3.len ∧ res.2.2 = none then some Error.ErrShortWrite else res.2.2
  -- return nBase + len(src), nil        (and the deferred pool.PutBuf(c))
  { n := nBase + src.length, err := none,
    w := { w with sink := res.1, nonce := nonce2 },
    env := g.2.PutBuf c3 }

/-- The length `handleLength` of the final piece of an oversized input. -/
def handleLength (len : Nat) : Nat :=
  if len % AeadMaxTextLength = 0 then AeadMaxTextLength else len % AeadMaxTextLength

/-- The method `write`. -/
def AeadWriter.write {σ : Type} (w : AeadWriter σ) (env : PoolEnv) (src : Bytes) :
    WriteResult σ :=
  if src.length > AeadMaxTextLength then
    let r := AeadWriter.write w env (src.take (src.length - handleLength src.length))
    if r.err ≠ none then { r with n := r.n }
    else r.w.writeChunk r.env r.n (src.drop (src.length - handleLength src.length))
  else w.writeChunk env 0 src
termination_by src.length
decreasing_by
  have hpos : 0 < handleLength src.length := by
    unfold handleLength AeadMaxTextLength
    split <;> omega
  simp only [List.length_take]
  unfold AeadMaxTextLength at *
  omega

/-- The method `Write` (the mutex has no effect on a single caller). -/
def AeadWriter.Write {σ : Type} (w : AeadWriter σ) (env : PoolEnv) (src : Bytes) :
    WriteResult σ :=
  w.write env src

/-! ## crypto/aead_reader.go -/

/-- The struct `AeadReader`. The source `R` is a transport that delivers the
bytes `R` and then reports end of stream; `buf = none` is Go's nil slice. -/
structure AeadReader where
  S : AEAD
  R : Bytes
  nonce : Bytes
  buf : Option Bytes
  start : Nat

/-- `NewAeadReader`. -/
def NewAeadReader (S : AEAD) (R : Bytes) : AeadReader :=
  { S := S, R := R, nonce := List.replicate S.NonceSize 0, buf := none, start := 0 }

/-- `io.ReadFull(r.R, b)` with `len(b) = n` on the byte-stream source: the
bytes read or the error, and the bytes left in the source. Nothing is read
for `n = 0`; a source that ends early gives `EOF` when it had no byte at all
and `ErrUnexpectedEOF` otherwise. -/
def ReadFull (R : Bytes) (n : Nat) : Except Error Bytes × Bytes :=
  if n = 0 then (Except.ok [], R)
  else if n ≤ R.length then (Except.ok (R.take n), R.drop n)
  else if R.length = 0 then (Except.error Error.EOF, [])
  else (Except.error Error.ErrUnexpectedEOF, [])

/-- `binary.BigEndian.Uint16(b)`; `none` is the index-out-of-range panic on a
slice shorter than two bytes. -/
def Uint16 : Bytes → Option Nat
  | b0 :: b1 :: _ => some (b0 * 256 + b1)
  | _ => none

/-- Go's builtin `copy(dst, src)`: the new contents of `dst`. -/
def copyInto (dst src : Bytes) : Bytes :=
  src.take (min dst.length src.length) ++ dst.drop (min dst.length src.length)

/-- Go's builtin `copy(dst, src)`: the number of bytes copied. -/
def copyCount (dst src : Bytes) : Nat := min dst.length src.length

/-- What a call of `Read` leaves behind: the results `(n, err)`, the
destination slice and the reader. -/
structure ReadResult where
  n : Nat
  err : Option Error
  dst : Bytes
  r : AeadReader

/-- The method `Read`. `none` is a run-time panic. The pooled slices `bLength`
and `buf` are completely overwritten by `io.ReadFull` before they are used and
`Open` returns the plaintext slice, so the results do not depend on the pool
and the pool calls are left out here. -/
def AeadReader.Read (r : AeadReader) (dst : Bytes) : Option ReadResult :=
  match r.buf with
  | some held =>
    -- n = copy(dst, r.buf[r.start:])
    if r.start > held.length then none
    else
      let n := copyCount dst (held.drop r.start)
      if r.start + n ≥ held.length then
        some { n := n, err := none, dst := copyInto dst (held.drop r.start),
               r := { r with start := r.start + n, buf := none } }
      else
        some { n := n, err := none, dst := copyInto dst (held.drop r.start),
               r := { r with start := r.start + n } }
  | none =>
    -- io.ReadFull(r.R, bLength)
    let rf := ReadFull r.R (2 + r.S.Overhead)
    match rf.1 with
    | Except.error e => some { n := 0, err := some e, dst := dst, r := { r with R := rf.2 } }
    | Except.ok sealedLength =>
      match r.S.Open r.nonce sealedLength [] with
      | Except.error e => some { n := 0, err := some e, dst := dst, r := { r with R := rf.2 } }
      | Except.ok bLength =>
        let nonce1 := BytesIncLittleEndian r.nonce
        match Uint16 bLength with
        | none => none
        | some u16Length =>
          let rf2 := ReadFull rf.2 (u16Length + r.S.Overhead)
          match rf2.1 with
          | Except.error e =>
            some { n := 0, err := some e, dst := dst, r := { r with R := rf2.2, nonce := nonce1 } }
          | Except.ok sealedText =>
            match r.S.Open nonce1 sealedText [] with
            | Except.error e =>
              some { n := 0, err := some e, dst := dst,
                     r := { r with R := rf2.2, nonce := nonce1 } }
            | Except.ok buf =>
              let nonce2 := BytesIncLittleEndian nonce1
              let n := copyCount dst buf
              if n < buf.length then
                some { n := n, err := none, dst := copyInto dst buf,
                       r := { r with R := rf2.2, nonce := nonce2, buf := some buf, start := n } }
              else
                some { n := n, err := none, dst := copyInto dst buf,
                       r := { r with R := rf2.2, nonce := nonce2 } }

/-! ## net/dial/proxy.go

The network, the standard library (`net`, `net/url`, `net/http`,
`encoding/base64`) and the third-party packages (`go-ntlmssp`,
`golang.org/x/net/proxy`) are an environment the functions are run in. Every
function returns, besides its results `(c, err)`, the network operations it
performed, in order. -/

/-- A `net.Conn` handed out by the environment. -/
abbrev Conn := Nat

/-- The fields of `url.Userinfo`; `password = none` when the URL gives none. -/
structure Userinfo where
  username : String
  password : Option String
  deriving DecidableEq, Repr

/-- The fields of a parsed `*url.URL` that the dialer reads. -/
structure URL where
  Scheme : String
  Host : String
  User : Option Userinfo
  deriving DecidableEq, Repr

/-- The struct `ProxyAuth`. -/
structure ProxyAuth where
  Enable : Bool
  Username : String
  Passwd : String
  deriving DecidableEq, Repr

/-- An `http.Request` as far as the dialer builds it. -/
structure Request where
  Method : String
  URL : String
  Header : List (String × String)
  deriving DecidableEq, Repr

/-- An `http.Response` as far as the dialer reads it. -/
structure Response where
  StatusCode : Nat
  Header : List (String × String)
  deriving DecidableEq, Repr

/-- `Header.Set`: replaces the values of `key` by the single value `value`. -/
def Request.HeaderSet (req : Request) (key value : String) : Request :=
  { req with Header := req.Header.filter (fun kv => kv.1 ≠ key) ++ [(key, value)] }

/-- `Header.Add`: appends a value for `key`. -/
def Request.HeaderAdd (req : Request) (key value : String) : Request :=
  { req with Header := req.Header ++ [(key, value)] }

/-- `Header.Get`: the first value of `key`, or the empty string. -/
def Response.HeaderGet (resp : Response) (key : String) : String :=
  match resp.Header.find? (fun kv => kv.1 = key) with
  | some kv => kv.2
  | none => ""

/-- A network operation performed by the dialer. -/
inductive NetOp where
  | dial (addr : String)
  | write (c : Conn) (req : Request)
  | readResponse (c : Conn)
  | socks5Dial (proxyHost : String) (auth : Option (String × String)) (addr : String)
  deriving DecidableEq, Repr

/-- The world the dialer runs in. `ReadResponse c reqs` is the response read
from `c` after the requests `reqs` were written to it. -/
structure Net where
  Parse : String → Except Error URL
  Dial : String → Except Error Conn
  RequestURLError : String → Option Error
  ReadResponse : Conn → List Request → Except Error Response
  EncodeToString : Bytes → String
  DecodeString : String → Except Error Bytes
  GetDomain : String → String × String
  NewNegotiateMessage : String → String → Except Error Bytes
  ProcessChallenge : Bytes → String → String → Except Error Bytes
  SOCKS5 : String → Option (String × String) → Option Error
  Socks5Dial : String → Option (String × String) → String → Except Error Conn

/-- The results `(c, err)` of a dial function and the network operations it
performed. -/
structure DialResult where
  c : Option Conn
  err : Option Error
  trace : List NetOp
  deriving DecidableEq, Repr

/-- `http.NewRequest(method, url, nil)`: fails when the URL does not parse. -/
def NewRequest (env : Net) (method url : String) : Except Error Request :=
  match env.RequestURLError url with
  | some e => Except.error e
  | none => Except.ok { Method := method, URL := url, Header := [] }

/-- Go's `[]byte(s)` for a string. -/
def stringBytes (s : String) : Bytes := s.toUTF8.toList.map (fun b => b.toNat)

/-- The function `dialTcpByHttpProxy`. -/
def dialTcpByHttpProxy (env : Net) (proxyHost dstAddr : String) (auth : ProxyAuth) :
    DialResult :=
  match env.Dial proxyHost with
  | Except.error e => { c := none, err := some e, trace := [NetOp.dial proxyHost] }
  | Except.ok c =>
    match NewRequest env "CONNECT" ("http://" ++ dstAddr) with
    | Except.error e => { c := some c, err := some e, trace := [NetOp.dial proxyHost] }
    | Except.ok req =>
      let req1 :=
        if auth.Enable then
          req.HeaderSet "Proxy-Authorization"
            ("Basic " ++ env.EncodeToString (stringBytes (auth.Username ++ ":" ++ auth.Passwd)))
        else req
      let req2 := req1.HeaderSet "User-Agent" "Mozilla/5.0"
      let trace := [NetOp.dial proxyHost, NetOp.write c req2, NetOp.readResponse c]
      match env.ReadResponse c [req2] with
      | Except.error e => { c := none, err := some e, trace := trace }
      | Except.ok resp =>
        if resp.StatusCode ≠ 200 then
          { c := some c,
            err := some (Error.message
              ("DialTcpByHttpProxy error, StatusCode [" ++ toString resp.StatusCode ++ "]")),
            trace := trace }
        else { c := some c, err := none, trace := trace }

/-- The final status check of `dialTcpByNTLMHttpProxy`. -/
def ntlmFinish (c : Conn) (resp : Response) (trace : List NetOp) : DialResult :=
  if resp.StatusCode ≠ 200 then
    { c := some c,
      err := some (Error.message
        ("DialTcpByNTLMHttpProxy error, StatusCode [" ++ toString resp.StatusCode ++ "]")),
      trace := trace }
  else { c := some c, err := none, trace := trace }

/-- The function `dialTcpByNTLMHttpProxy` from the first `req.Write(c)` on. -/
def ntlmExchange (env : Net) (c : Conn) (dstAddr : String) (auth : ProxyAuth) (req : Request)
    (trace0 : List NetOp) : DialResult :=
  let trace1 := trace0 ++ [NetOp.write c req, NetOp.readResponse c]
  match env.ReadResponse c [req] with
  | Except.error e => { c := none, err := some e, trace := trace1 }
  | Except.ok resp =>
    if auth.Enable ∧ resp.StatusCode = 407 then
      let challenge := resp.HeaderGet "Proxy-Authenticate"
      let username := (env.GetDomain auth.Username).1
      if challenge.startsWith "Negotiate " then
        match env.DecodeString (challenge.drop "Negotiate ".length) with
        | Except.error e => { c := none, err := some e, trace := trace1 }
        | Except.ok challengeMessage =>
          match env.ProcessChallenge challengeMessage username auth.Passwd with
          | Except.error e => { c := none, err := some e, trace := trace1 }
          | Except.ok authenticateMessage =>
            match NewRequest env "CONNECT" ("http://" ++ dstAddr) with
            | Except.error e => { c := none, err := some e, trace := trace1 }
            | Except.ok req' =>
              let req2 := req'.HeaderAdd "Proxy-Authorization"
                ("Negotiate " ++ env.EncodeToString authenticateMessage)
              let trace2 := trace1 ++ [NetOp.write c req2, NetOp.readResponse c]
              match env.ReadResponse c [req, req2] with
              | Except.error e => { c := none, err := some e, trace := trace2 }
              | Except.ok resp2 => ntlmFinish c resp2 trace2
      else ntlmFinish c resp trace1
    else ntlmFinish c resp trace1

/-- The function `dialTcpByNTLMHttpProxy`. -/
def dialTcpByNTLMHttpProxy (env : Net) (proxyHost dstAddr : String) (auth : ProxyAuth) :
    DialResult :=
  match env.Dial proxyHost with
  | Except.error e => { c := none, err := some e, trace := [NetOp.dial proxyHost] }
  | Except.ok c =>
    match NewRequest env "CONNECT" ("http://" ++ dstAddr) with
    | Except.error e => { c := some c, err := some e, trace := [NetOp.dial proxyHost] }
    | Except.ok req =>
      if auth.Enable then
        let domain := (env.GetDomain auth.Username).2
        match env.NewNegotiateMessage domain "" with
        | Except.error e => { c := none, err := some e, trace := [NetOp.dial proxyHost] }
        | Except.ok negotiateMessage =>
          ntlmExchange env c dstAddr auth
            (req.HeaderAdd "Proxy-Authorization"
              ("Negotiate " ++ env.EncodeToString negotiateMessage))
            [NetOp.dial proxyHost]
      else ntlmExchange env c dstAddr auth req [NetOp.dial proxyHost]

/-- The function `dialTcpBySocks5Proxy`. -/
def dialTcpBySocks5Proxy (env : Net) (proxyHost dstAddr : String) (auth : ProxyAuth) :
    DialResult :=
  let s5Auth : Option (String × String) :=
    if auth.Enable then some (auth.Username, auth.Passwd) else none
  match env.SOCKS5 proxyHost s5Auth with
  | some e => { c := none, err := some e, trace := [] }
  | none =>
    match env.Socks5Dial proxyHost s5Auth dstAddr with
    | Except.error e =>
      { c := none, err := some e, trace := [NetOp.socks5Dial proxyHost s5Auth dstAddr] }
    | Except.ok c =>
      { c := some c, err := none, trace := [NetOp.socks5Dial proxyHost s5Auth dstAddr] }

/-- The `ProxyAuth` that `dialTcpByProxy` builds from the parsed URL. -/
def proxyAuthOf (u : URL) : ProxyAuth :=
  match u.User with
  | none => { Enable := false, Username := "", Passwd := "" }
  | some ui => { Enable := true, Username := ui.username, Passwd := ui.password.getD "" }

/-- The function `dialTcpByProxy` (the context argument is not used by the
code). -/
def dialTcpByProxy (env : Net) (proxyURL addr : String) : DialResult :=
  match env.Parse proxyURL with
  | Except.error e => { c := none, err := some e, trace := [] }
  | Except.ok proxyUrl =>
    let auth := proxyAuthOf proxyUrl
    if proxyUrl.Scheme = "http" then dialTcpByHttpProxy env proxyUrl.Host addr auth
    else if proxyUrl.Scheme = "ntlm" then dialTcpByNTLMHttpProxy env proxyUrl.Host addr auth
    else if proxyUrl.Scheme = "socks5" then dialTcpBySocks5Proxy env proxyUrl.Host addr auth
    else
      { c := none,
        err := some (Error.message
          ("Proxy URL scheme must be http or socks5 or ntlm, not [" ++ proxyUrl.Scheme ++ "]")),
        trace := [] }

/-! ## The wire format, as the specification words it -/

/-- The wire bytes of one chunk written at nonce `nonce`: the sealed two-byte
big-endian length of the text, then the text sealed under the next nonce. -/
def frame (S : AEAD) (nonce text : Bytes) : Bytes :=
  S.Seal nonce (PutUint16 text.length) [] ++ S.Seal (BytesIncLittleEndian nonce) text []

/-- The wire bytes of successive chunks, each using two nonces. -/
def frames (S : AEAD) : Bytes → List Bytes → List Bytes
  | _, [] => []
  | nonce, c :: cs =>
    frame S nonce c :: frames S (BytesIncLittleEndian (BytesIncLittleEndian nonce)) cs

/-- The pieces `write` cuts an input into, following its recursion: the
pieces of the leading part, then the final piece. -/
def chunksOf (src : Bytes) : List Bytes :=
  if src.length > AeadMaxTextLength then
    chunksOf (src.take (src.length - handleLength src.length)) ++
      [src.drop (src.length - handleLength src.length)]
  else [src]
termination_by src.length
decreasing_by
  have hpos : 0 < handleLength src.length := by
    unfold handleLength AeadMaxTextLength
    split <;> omega
  simp only [List.length_take]
  unfold AeadMaxTextLength at *
  omega

/-- The sink state after successive `Write` calls, one per element of `fs`. -/
def feedSink {σ : Type} (W : IoWriter σ) (st : σ) (fs : List Bytes) : σ :=
  fs.foldl (fun st f => (W st f).1) st

/-- Successive `Write` calls, one per element of the list, on one writer. -/
def AeadWriter.WriteAll {σ : Type} (w : AeadWriter σ) (env : PoolEnv) :
    List Bytes → AeadWriter σ × PoolEnv
  | [] => (w, env)
  | p :: ps => AeadWriter.WriteAll (w.Write env p).w (w.Write env p).env ps

/-- Successive `Read` calls on one reader, one per destination slice of the
list: the bytes the calls returned (`dst[:n]` of each call, in order) and the
reader afterwards; `none` if a call panics. -/
def AeadReader.ReadAll (r : AeadReader) : List Bytes → Option (Bytes × AeadReader)
  | [] => some ([], r)
  | dst :: dsts =>
    match r.Read dst with
    | none => none
    | some res =>
      match AeadReader.ReadAll res.r dsts with
      | none => none
      | some (out, r') => some (res.dst.take res.n ++ out, r')

/-- The decrypted bytes a reader holds and has not delivered yet. -/
def AeadReader.pending (r : AeadReader) : Bytes :=
  match r.buf with
  | some held => held.drop r.start
  | none => []

/-- The reader sits at a chunk boundary of a stream carrying the chunks `cs`,
with a held buffer, if any, that still has bytes to deliver. -/
def ReaderAt (r : AeadReader) (cs : List Bytes) : Prop :=
  r.R = (frames r.S r.nonce cs).flatten ∧ (∀ c ∈ cs, c.length ≤ AeadMaxTextLength) ∧
  (∀ held, r.buf = some held → r.start < held.length)

/-- A byte sequence read as an unsigned big-endian integer. -/
def beValue (b : Bytes) : Nat := b.foldl (fun acc x => acc * 256 + x) 0

/-! ## Sample collaborators used to instantiate the theorems -/

/-- The tag of the sample cipher. -/
def sampleTag (nonce p : Bytes) : Nat := (nonce.sum + p.sum) % 251

/-- A sample `cipher.AEAD`: two-byte nonce, one tag byte after the text. -/
def sampleAead : AEAD where
  NonceSize := 2
  Overhead := 1
  Seal := fun nonce p _ => p ++ [sampleTag nonce p]
  Open := fun nonce ct _ =>
    if ct.getLast? = some (sampleTag nonce ct.dropLast) then Except.ok ct.dropLast
    else Except.error (Error.message "cipher: message authentication failed")

/-- Empty pools and no recorded runtime choices. -/
def emptyEnv : PoolEnv :=
  { pools := { bufPool16k := [], bufPool5k := [], bufPool2k := [], bufPool1k := [], bufPool := [] },
    picks := [] }

/-- The byte sequence `b` with bit `j` of the byte at index `i` flipped. -/
def flipBit (b : Bytes) (i j : Nat) : Bytes := b.set i (b.getD i 0 ^^^ 2 ^ j)

/-- A sample cipher for one session in which `sealed nonce` is the plaintext
that was sealed under `nonce`: under each nonce it opens that one ciphertext
and rejects every other byte sequence. -/
def sessionAead (sealed : Bytes → Bytes) : AEAD where
  NonceSize := 2
  Overhead := 1
  Seal := fun nonce p _ => p ++ [sampleTag nonce p]
  Open := fun nonce ct _ =>
    if ct = sealed nonce ++ [sampleTag nonce (sealed nonce)] then Except.ok (sealed nonce)
    else Except.error (Error.message "cipher: message authentication failed")

/-- The plaintexts of a session that writes the single chunk `[1, 2, 3]`:
its header under nonce `[0, 0]` and its text under nonce `[1, 0]`. -/
def sampleSession (nonce : Bytes) : Bytes :=
  if nonce = [0, 0] then [0, 3] else if nonce = [1, 0] then [1, 2, 3] else []

/-- A sample environment: it parses one proxy URL, `ftp://proxy:21`, and has
no reachable network. -/
def sampleNet : Net where
  Parse := fun s =>
    if s = "ftp://proxy:21" then Except.ok { Scheme := "ftp", Host := "proxy:21", User := none }
    else Except.error (Error.message "parse error")
  Dial := fun _ => Except.error (Error.message "connection refused")
  RequestURLError := fun _ => none
  ReadResponse := fun _ _ => Except.error Error.EOF
  EncodeToString := fun _ => ""
  DecodeString := fun _ => Except.ok []
  GetDomain := fun s => (s, "")
  NewNegotiateMessage := fun _ _ => Except.ok []
  ProcessChallenge := fun _ _ _ => Except.ok []
  SOCKS5 := fun _ _ => none
  Socks5Dial := fun _ _ _ => Except.error (Error.message "connection refused")

/-- The values a request carries for the header `key`, in order. -/
def Request.HeaderValues (req : Request) (key : String) : List String :=
  (req.Header.filter (fun kv => kv.1 = key)).map (fun kv => kv.2)

/-- A sample environment with a reachable HTTP proxy: it parses the proxy URL
`http://user:pw@proxy:8080`, every TCP dial yields connection 1 and every
response read has status `status`. The base64 codec is a stand-in. -/
def proxyNet (status : Nat) : Net where
  Parse := fun s =>
    if s = "http://user:pw@proxy:8080" then
      Except.ok { Scheme := "http", Host := "proxy:8080",
                  User := some { username := "user", password := some "pw" } }
    else Except.error (Error.message "parse error")
  Dial := fun _ => Except.ok 1
  RequestURLError := fun _ => none
  ReadResponse := fun _ _ => Except.ok { StatusCode := status, Header := [] }
  EncodeToString := fun b => String.mk (b.map Char.ofNat)
  DecodeString := fun s => Except.ok (stringBytes s)
  GetDomain := fun s => (s, "")
  NewNegotiateMessage := fun _ _ => Except.ok []
  ProcessChallenge := fun _ _ _ => Except.ok []
  SOCKS5 := fun _ _ => none
  Socks5Dial := fun _ _ _ => Except.ok 1

/-! ## The pool over a sequence of calls -/

/-- The index of the tier that the thresholds of `GetBuf` and `PutBuf` select
for a number: 4 for `>= 16*1024`, 3 for `>= 5*1024`, 2 for `>= 2*1024`, 1 for
`>= 1*1024`, 0 otherwise. -/
def tierOf (n : Nat) : Nat :=
  if n ≥ 16 * 1024 then 4
  else if n ≥ 5 * 1024 then 3
  else if n ≥ 2 * 1024 then 2
  else if n ≥ 1 * 1024 then 1
  else 0

/-- Every buffer held in a pool has a capacity inside the range of the tier of
that pool. -/
def PoolsInTier (ps : Pools) : Prop :=
  (∀ b ∈ ps.bufPool16k, 16384 ≤ b.cap) ∧
  (∀ b ∈ ps.bufPool5k, 5120 ≤ b.cap ∧ b.cap < 16384) ∧
  (∀ b ∈ ps.bufPool2k, 2048 ≤ b.cap ∧ b.cap < 5120) ∧
  (∀ b ∈ ps.bufPool1k, 1024 ≤ b.cap ∧ b.cap < 2048) ∧
  (∀ b ∈ ps.bufPool, b.cap < 1024)

/-- A call into the pool package: `GetBuf(size)`, with the choice the runtime
makes inside `sync.Pool.Get`, or `PutBuf(buf)`. -/
inductive PoolOp where
  | get (size : Nat) (pick : Option Nat)
  | put (buf : Buf)
  deriving DecidableEq, Repr

/-- The pools after one call. -/
def Pools.step (ps : Pools) : PoolOp → Pools
  | PoolOp.get size pick => (GetBuf ps pick size).2
  | PoolOp.put buf => PutBuf ps buf

/-- The pools after a sequence of calls. -/
def Pools.run (ps : Pools) (ops : List PoolOp) : Pools := ops.foldl Pools.step ps

/-- The pools at program start. -/
def emptyPools : Pools :=
  { bufPool16k := [], bufPool5k := [], bufPool2k := [], bufPool1k := [], bufPool := [] }

/-- The pool of the tier with index `t` (see `tierOf`). -/
def Pools.tier (ps : Pools) (t : Nat) : SyncPool :=
  if t = 4 then ps.bufPool16k
  else if t = 3 then ps.bufPool5k
  else if t = 2 then ps.bufPool2k
  else if t = 1 then ps.bufPool1k
  else ps.bufPool

/-- The held buffer of a reader, if any, has at least one undelivered byte. -/
def HeldOK (r : AeadReader) : Prop := ∀ held, r.buf = some held → r.start < held.length

/-- The method `Close`. `closer` is the outcome of the type assertion
`w.W.(io.Closer)`: `none` when the sink is no `io.Closer`, otherwise the
sink's `Close` method, which gives the sink state afterwards and its error.
Returns the writer afterwards and the error. -/
def AeadWriter.Close {σ : Type} (w : AeadWriter σ) (closer : Option (σ → σ × Option Error)) :
    AeadWriter σ × Option Error :=
  match closer with
  | some c => ({ w with sink := (c w.sink).1 }, (c w.sink).2)
  | none => (w, none)

/-- A sample `Close` method of a sink: it fails with "close failed". -/
def failingClose : List Bytes → List Bytes × Option Error :=
  fun log => (log, some (Error.message "close failed"))

/-! ## net/mux

Only the test file of this package is among the sources; the multiplexer
itself is modelled from sections 3, 4.5 and 9 of the specification, with the
names the test uses. A connection is handled in one step. -/

/-- Modelled from the spec: the stream wrapper of net/mux, missing from the
sources. It "buffers an initial prefix read directly from the socket and
exposes a read interface that first drains that buffered prefix, then falls
through to direct socket reads": `buffered` is the peeked prefix not yet read,
`sock` the bytes still to come from the socket. -/
structure SharedConn where
  buffered : Bytes
  sock : Bytes
  deriving DecidableEq, Repr

/-- Modelled from the spec: the byte stream the consumer of a wrapped
connection (missing from the sources) will see: the peeked prefix replayed
first, then the remainder of the socket. -/
def SharedConn.stream (sc : SharedConn) : Bytes := sc.buffered ++ sc.sock

/-- Modelled from the spec: the read interface of the wrapped connection
(missing from the sources) for a destination of `n` bytes: from the buffered
prefix while it has bytes, from the socket afterwards. -/
def SharedConn.Read (sc : SharedConn) (n : Nat) : Bytes × SharedConn :=
  if sc.buffered ≠ [] then (sc.buffered.take n, { sc with buffered := sc.buffered.drop n })
  else (sc.sock.take n, { sc with sock := sc.sock.drop n })

/-- Modelled from the spec: successive reads on a wrapped connection (missing
from the sources), one per destination size: the bytes returned, in order, and
the connection afterwards. -/
def SharedConn.ReadAll (sc : SharedConn) : List Nat → Bytes × SharedConn
  | [] => ([], sc)
  | n :: ns =>
    ((sc.Read n).1 ++ (SharedConn.ReadAll (sc.Read n).2 ns).1,
     (SharedConn.ReadAll (sc.Read n).2 ns).2)

/-- Modelled from the spec: a routing rule of the multiplexer (MuxEntry,
missing from the sources): priority (lower is evaluated first), required
prefix length, matcher over that prefix, and the virtual listener: whether it
was closed and its queue of delivered connections. `id` is the registration
number of the rule. -/
structure MuxEntry where
  id : Nat
  priority : Int
  needBytesNum : Nat
  matchFn : Bytes → Bool
  closed : Bool
  queue : List SharedConn

/-- Modelled from the spec: the multiplexer state (Mux, missing from the
sources): the rules in evaluation order, the queue of the default listener if
one exists, and the number of rules registered so far. -/
structure Mux where
  lns : List MuxEntry
  defaultLn : Option (List SharedConn)
  nextId : Nat

/-- Modelled from the spec: an accepted raw connection as the missing accept
loop sees it: the bytes the peer sends before it stops, and whether reading
the prefix fails with a transport error. -/
structure RawConn where
  incoming : Bytes
  peekError : Bool
  deriving DecidableEq, Repr

/-- Modelled from the spec: what the missing accept loop does with a
connection: push it to the listener of a rule, push it to the default
listener, or close it. -/
inductive Outcome where
  | listener (id : Nat)
  | defaultListener
  | closed
  deriving DecidableEq, Repr

/-- Modelled from the spec: `NewMux` (missing from the sources), a multiplexer
with no rule and no default listener. -/
def NewMux : Mux := { lns := [], defaultLn := none, nextId := 0 }

/-- Modelled from the spec: the place of a new rule in the evaluation order
(the registration code is missing from the sources): "lower value = evaluated
earlier; ties fall back to registration order", so the new rule goes behind
every rule whose priority is not larger. -/
def insertEntry (e : MuxEntry) : List MuxEntry → List MuxEntry
  | [] => [e]
  | x :: xs => if x.priority ≤ e.priority then x :: insertEntry e xs else e :: x :: xs

/-- Modelled from the spec: `Listen(priority, needBytesNum, fn)` (missing from
the sources) registers a rule with an open, empty virtual listener. -/
def Mux.Listen (m : Mux) (priority : Int) (needBytesNum : Nat) (fn : Bytes → Bool) : Mux :=
  { m with
    lns := insertEntry
      { id := m.nextId, priority := priority, needBytesNum := needBytesNum, matchFn := fn,
        closed := false, queue := [] } m.lns,
    nextId := m.nextId + 1 }

/-- Modelled from the spec: `DefaultListener()` (missing from the sources):
"the single catch-all virtual listener"; at most one exists. -/
def Mux.DefaultListener (m : Mux) : Mux :=
  match m.defaultLn with
  | some _ => m
  | none => { m with defaultLn := some [] }

/-- Modelled from the spec: closing the virtual listener of rule `id` (the
code is missing from the sources): it "stops further deliveries to it" and
does not "affect other rules". -/
def Mux.CloseListener (m : Mux) (id : Nat) : Mux :=
  { m with lns := m.lns.map (fun e => if e.id = id then { e with closed := true } else e) }

/-- Modelled from the spec: the largest required prefix length over the
registered rules, which the missing accept loop peeks. -/
def Mux.maxNeedBytesNum (m : Mux) : Nat := m.lns.foldl (fun acc e => max acc e.needBytesNum) 0

/-- Modelled from the spec: whether a rule takes a connection (the routing
code is missing from the sources): its listener is open, its required prefix
has arrived ("if the peer disconnects before supplying enough bytes, that rule
is skipped") and its matcher returns true against that prefix. -/
def MuxEntry.accepts (e : MuxEntry) (incoming : Bytes) : Bool :=
  !e.closed && decide (e.needBytesNum ≤ incoming.length) &&
    e.matchFn (incoming.take e.needBytesNum)

/-- Modelled from the spec: the wrapped connection the missing accept loop
hands on: the peeked bytes buffered, the rest left in the socket. -/
def Mux.wrap (m : Mux) (c : RawConn) : SharedConn :=
  { buffered := c.incoming.take m.maxNeedBytesNum, sock := c.incoming.drop m.maxNeedBytesNum }

/-- Modelled from the spec: the handling of one accepted connection by `Serve`
(missing from the sources). A read error while peeking closes the connection.
Otherwise "rules are evaluated in ascending priority order; the first whose
matcher returns true against its required prefix wins, and the wrapped
connection is pushed onto that rule's virtual listener queue. If no rule
matches, the connection is pushed to the default listener if one exists;
otherwise it is closed". -/
def Mux.serveConn (m : Mux) (c : RawConn) : Mux × Outcome :=
  if c.peekError then (m, Outcome.closed)
  else
    match m.lns.find? (fun e => e.accepts c.incoming) with
    | some w =>
      ({ m with
         lns := m.lns.map (fun e =>
           if e.id = w.id then { e with queue := e.queue ++ [m.wrap c] } else e) },
       Outcome.listener w.id)
    | none =>
      match m.defaultLn with
      | some q => ({ m with defaultLn := some (q ++ [m.wrap c]) }, Outcome.defaultListener)
      | none => (m, Outcome.closed)

/-- Modelled from the spec: a call into the multiplexer or an accepted
connection (the package is missing from the sources). -/
inductive MuxOp where
  | listen (priority : Int) (needBytesNum : Nat) (fn : Bytes → Bool)
  | defaultListener
  | close (id : Nat)
  | conn (c : RawConn)

/-- Modelled from the spec: the multiplexer after one operation. -/
def Mux.step (m : Mux) : MuxOp → Mux
  | MuxOp.listen priority needBytesNum fn => m.Listen priority needBytesNum fn
  | MuxOp.defaultListener => m.DefaultListener
  | MuxOp.close id => m.CloseListener id
  | MuxOp.conn c => (m.serveConn c).1

/-- Modelled from the spec: the multiplexer after a sequence of operations. -/
def Mux.run (m : Mux) (ops : List MuxOp) : Mux := ops.foldl Mux.step m

/-- Rule `a` is evaluated before rule `b`: lower priority value, or equal
priority and registered earlier; the two are different registrations. -/
def MuxEntry.before (a b : MuxEntry) : Prop :=
  (a.priority < b.priority ∨ (a.priority = b.priority ∧ a.id < b.id)) ∧ a.id ≠ b.id

/-- The rules of a multiplexer are in evaluation order and carry registration
numbers below the next one. -/
def Mux.Ordered (m : Mux) : Prop :=
  m.lns.Pairwise MuxEntry.before ∧ ∀ e ∈ m.lns, e.id < m.nextId

/-- The matcher of `TestMuxPriority`: `data[0] == '1'`. -/
def firstByteIs1 (data : Bytes) : Bool := data.head? = some 49

/-- The second matcher of the last part of `TestMuxPriority`: `data[0] == '2'`. -/
def firstByteIs2 (data : Bytes) : Bool := data.head? = some 50

/-- The call `rd.ReadString(delim)` of a `bufio.Reader` over a stream: the
bytes up to and including the first delimiter; `none` when the stream ends
before a delimiter (an error in Go). -/
def ReadString (delim : Nat) : Bytes → Option Bytes
  | [] => none
  | x :: xs => if x = delim then some [x] else (ReadString delim xs).map (fun r => x :: r)

/-- The body of `runEchoSvr` in `mux_test.go` for one accepted connection: it
reads a line from the connection and writes it back; the result is the reply
written, `none` when the read fails. -/
def echoReply (sc : SharedConn) : Option Bytes := ReadString 10 sc.stream

/-- A sample `cipher.AEAD` whose `Open` inverts `Seal` but whose `Seal` adds
no byte although `Overhead` is 1 (Go documents `Overhead` as the maximum
difference between the lengths of a plaintext and its ciphertext). -/
def plainAead : AEAD where
  NonceSize := 2
  Overhead := 1
  Seal := fun _ p _ => p
  Open := fun _ ct _ => Except.ok ct

/-- Modelled from the spec: the matcher of `ListenHTTPS` (missing from the
sources), which "requires a single leading byte and recognizes the TLS
handshake record type value (0x16)". -/
def httpsMatch (data : Bytes) : Bool := data.head? = some 0x16

/-! ## Theorems -/

theorem BytesIncLittleEndian_length (b : Bytes) :
    (BytesIncLittleEndian b).length = b.length := by
  induction b with
  | nil => rfl
  | cons x xs ih =>
    simp only [BytesIncLittleEndian]
    split <;> simp [ih]

theorem leValue_lt (b : Bytes) (hb : isBytes b) : leValue b < 256 ^ b.length := by
  induction b with
  | nil => simp [leValue]
  | cons x xs ih =>
    have hx : x < 256 := hb x (by simp)
    have hxs : isBytes xs := fun y hy => hb y (by simp [hy])
    have := ih hxs
    simp only [leValue, List.length_cons, pow_succ]
    omega

theorem leValue_inc (b : Bytes) (hb : isBytes b) :
    leValue (BytesIncLittleEndian b) = (leValue b + 1) % 256 ^ b.length := by
  induction b with
  | nil => simp [BytesIncLittleEndian, leValue]
  | cons x xs ih =>
    have hx : x < 256 := hb x (by simp)
    have hxs : isBytes xs := fun y hy => hb y (by simp [hy])
    have hlt := leValue_lt xs hxs
    have ih := ih hxs
    simp only [BytesIncLittleEndian, List.length_cons, pow_succ]
    by_cases hc : x + 1 = 256
    · have h0 : (x + 1) % 256 = 0 := by omega
      simp only [h0, ne_eq, not_true_eq_false, if_false, leValue, ih]
      have hx' : x = 255 := by omega
      subst hx'
      generalize 256 ^ xs.length = m at *
      generalize leValue xs = v at *
      have hm : 0 < m := by omega
      rw [show 255 + 256 * v + 1 = 256 * (v + 1) by ring, mul_comm m 256,
        Nat.mul_mod_mul_left]
      omega
    · have h1 : (x + 1) % 256 = x + 1 := by omega
      have h2 : x + 1 ≠ 0 := by omega
      simp only [h1, ne_eq, h2, not_false_eq_true, if_true, leValue]
      generalize 256 ^ xs.length = m at *
      generalize leValue xs = v at *
      have : x + 1 + 256 * v < m * 256 := by omega
      rw [show x + 256 * v + 1 = x + 1 + 256 * v by ring, Nat.mod_eq_of_lt this]

theorem isBytes_inc (b : Bytes) (hb : isBytes b) : isBytes (BytesIncLittleEndian b) := by
  induction b with
  | nil => exact hb
  | cons x xs ih =>
    have hxs : isBytes xs := fun y hy => hb y (by simp [hy])
    have hm : (x + 1) % 256 < 256 := Nat.mod_lt _ (by decide)
    simp only [BytesIncLittleEndian]
    split
    · intro y hy
      rcases List.mem_cons.mp hy with h | h
      · exact h ▸ hm
      · exact hxs y h
    · intro y hy
      rcases List.mem_cons.mp hy with h | h
      · exact h ▸ hm
      · exact ih hxs y h

/-- C4. `BytesIncLittleEndian` keeps the length of a byte sequence and, read as
an unsigned little-endian integer, turns its value `v` into
`(v + 1) mod 256^N`; `[0x00,0x00]` becomes `[0x01,0x00]` and `[0xFF,0x00]`
becomes `[0x00,0x01]`. -/
theorem C4_nonce_increment (b : Bytes) (hb : isBytes b) :
    (BytesIncLittleEndian b).length = b.length ∧
    isBytes (BytesIncLittleEndian b) ∧
    leValue (BytesIncLittleEndian b) = (leValue b + 1) % 256 ^ b.length ∧
    BytesIncLittleEndian [0x00, 0x00] = [0x01, 0x00] ∧
    BytesIncLittleEndian [0xFF, 0x00] = [0x00, 0x01] := by
  exact ⟨BytesIncLittleEndian_length b, isBytes_inc b hb, leValue_inc b hb, by decide, by decide⟩

theorem C4_nonce_increment_witness :
    isBytes [0xFF, 0xFF, 0x07] ∧
    ((BytesIncLittleEndian [0xFF, 0xFF, 0x07]).length = [0xFF, 0xFF, 0x07].length ∧
    isBytes (BytesIncLittleEndian [0xFF, 0xFF, 0x07]) ∧
    leValue (BytesIncLittleEndian [0xFF, 0xFF, 0x07]) =
      (leValue [0xFF, 0xFF, 0x07] + 1) % 256 ^ [0xFF, 0xFF, 0x07].length ∧
    BytesIncLittleEndian [0x00, 0x00] = [0x01, 0x00] ∧
    BytesIncLittleEndian [0xFF, 0x00] = [0x00, 0x01]) :=
  ⟨by decide, C4_nonce_increment [0xFF, 0xFF, 0x07] (by decide)⟩

theorem GetBuf_len (ps : Pools) (pick : Option Nat) (size : Nat) :
    (GetBuf ps pick size).1.len = size := by
  unfold GetBuf
  split
  · rfl
  · split <;> rfl

theorem GetBuf_cap (ps : Pools) (pick : Option Nat) (size : Nat) :
    size ≤ (GetBuf ps pick size).1.cap := by
  unfold GetBuf
  split
  · simp [makeBuf, Buf.cap]
  · split
    · simp [makeBuf, Buf.cap]
    · simp only [Buf.cap] at *
      omega

/-- C9. For every size, every state of the five free lists and every choice
the pool runtime makes, `GetBuf(size)` returns a slice of length exactly
`size` whose capacity is at least `size`. -/
theorem C9_GetBuf_length_and_capacity (ps : Pools) (pick : Option Nat) (size : Nat) :
    (GetBuf ps pick size).1.len = size ∧
    size ≤ (GetBuf ps pick size).1.cap ∧
    (GetBuf ps pick size).1.bytes.length = size := by
  refine ⟨GetBuf_len ps pick size, GetBuf_cap ps pick size, ?_⟩
  have h1 := GetBuf_len ps pick size
  have h2 := GetBuf_cap ps pick size
  simp only [Buf.bytes, Buf.cap, List.length_take] at *
  omega

/-! ### The writer: one chunk -/

theorem envGetBuf_len (env : PoolEnv) (size : Nat) : (env.GetBuf size).1.len = size :=
  Golib.GetBuf_len _ _ _

theorem envGetBuf_cap (env : PoolEnv) (size : Nat) : size ≤ (env.GetBuf size).1.cap :=
  Golib.GetBuf_cap _ _ _

theorem PutUint16_length (v : Nat) : (PutUint16 v).length = 2 := rfl

theorem Buf.appendAt_fit (c : Buf) (off : Nat) (out : Bytes) (h : off + out.length ≤ c.cap) :
    c.appendAt off out =
      { data := c.data.take off ++ out ++ c.data.drop (off + out.length), len := c.len } := by
  simp [Buf.appendAt, Buf.writeAt, h]

/-- The visible bytes of the chunk buffer after both seals, for a cipher with a
fixed overhead, whatever the pool handed out. -/
theorem sealed_chunk_bytes (S : AEAD) (hS : S.FixedOverhead) (c : Buf) (nonce src : Bytes)
    (hlen : c.len = 2 + S.Overhead + src.length + S.Overhead) (hcap : c.len ≤ c.cap) :
    (((c.writeAt 0 (PutUint16 (src.length % 65536))).appendAt 0
        (S.Seal nonce ((c.writeAt 0 (PutUint16 (src.length % 65536))).data.take 2) [])).appendAt
        (2 + S.Overhead) (S.Seal (BytesIncLittleEndian nonce) src [])).bytes
      = S.Seal nonce (PutUint16 (src.length % 65536)) [] ++
        S.Seal (BytesIncLittleEndian nonce) src [] := by
  obtain ⟨d, l⟩ := c
  simp only [Buf.cap] at hcap hlen
  have hA := hS nonce (PutUint16 (src.length % 65536))
  have hB := hS (BytesIncLittleEndian nonce) src
  rw [PutUint16_length] at hA
  have hhl : (PutUint16 (src.length % 65536)).length = 2 := rfl
  generalize PutUint16 (src.length % 65536) = hdr at *
  have e1 : (Buf.writeAt { data := d, len := l } 0 hdr) = { data := hdr ++ d.drop 2, len := l } := by
    simp [Buf.writeAt, hhl]
  have t1 : (hdr ++ d.drop 2).take 2 = hdr := by
    rw [List.take_append_of_le_length (by omega)]
    exact List.take_of_length_le (by omega)
  rw [e1]
  simp only [t1]
  generalize S.Seal nonce hdr [] = A at *
  generalize S.Seal (BytesIncLittleEndian nonce) src [] = B at *
  have hd1 : (hdr ++ d.drop 2).length = d.length := by
    simp only [List.length_append, List.length_drop]; omega
  rw [Buf.appendAt_fit { data := hdr ++ d.drop 2, len := l } 0 A
    (by simp only [Buf.cap, hd1]; omega)]
  simp only [List.take_zero, List.nil_append, Nat.zero_add]
  have hd2 : (A ++ (hdr ++ d.drop 2).drop A.length).length = d.length := by
    simp only [List.length_append, List.length_drop, hd1]; omega
  rw [Buf.appendAt_fit _ _ _ (by simp only [Buf.cap, hd2]; omega)]
  have t2 : (A ++ (hdr ++ d.drop 2).drop A.length).take (2 + S.Overhead) = A := by
    rw [← hA, List.take_left']
    rfl
  simp only [t2, Buf.bytes]
  rw [List.append_assoc, ← List.append_assoc A B, List.take_left']
  simp only [List.length_append]
  omega

theorem AeadMaxTextLength_eq : AeadMaxTextLength = 16383 := by decide

theorem handleLength_pos (len : Nat) : 0 < handleLength len := by
  unfold handleLength
  rw [AeadMaxTextLength_eq]
  split <;> omega

theorem handleLength_le (len : Nat) (h : AeadMaxTextLength < len) :
    handleLength len ≤ AeadMaxTextLength ∧ handleLength len < len := by
  unfold handleLength
  rw [AeadMaxTextLength_eq] at *
  split <;> omega

/-- One chunk: what `writeChunk` does to the writer, for a cipher with a fixed
overhead and a text whose length fits the header. -/
theorem writeChunk_spec {σ : Type} (w : AeadWriter σ) (env : PoolEnv) (nBase : Nat)
    (src : Bytes) (hS : w.S.FixedOverhead) (hlen : src.length < 65536) :
    (w.writeChunk env nBase src).w.sink = (w.W w.sink (frame w.S w.nonce src)).1 ∧
    (w.writeChunk env nBase src).w.nonce
      = BytesIncLittleEndian (BytesIncLittleEndian w.nonce) ∧
    (w.writeChunk env nBase src).w.S = w.S ∧
    (w.writeChunk env nBase src).w.W = w.W ∧
    (w.writeChunk env nBase src).n = nBase + src.length ∧
    (w.writeChunk env nBase src).err = none := by
  have hb := sealed_chunk_bytes w.S hS
    (env.GetBuf (2 + w.S.Overhead + src.length + w.S.Overhead)).1 w.nonce src
    (envGetBuf_len _ _)
    (by rw [envGetBuf_len]; exact envGetBuf_cap _ _)
  rw [Nat.mod_eq_of_lt hlen] at hb
  refine ⟨?_, rfl, rfl, rfl, rfl, rfl⟩
  simp only [AeadWriter.writeChunk, Nat.mod_eq_of_lt hlen, hb, frame]

theorem writeChunk_err {σ : Type} (w : AeadWriter σ) (env : PoolEnv) (nBase : Nat)
    (src : Bytes) : (w.writeChunk env nBase src).err = none := rfl

theorem write_small {σ : Type} (w : AeadWriter σ) (env : PoolEnv) (src : Bytes)
    (h : ¬ src.length > AeadMaxTextLength) : w.write env src = w.writeChunk env 0 src := by
  rw [AeadWriter.write, if_neg h]

theorem write_big_raw {σ : Type} (w : AeadWriter σ) (env : PoolEnv) (src : Bytes)
    (h : src.length > AeadMaxTextLength) :
    w.write env src =
      if (w.write env (src.take (src.length - handleLength src.length))).err ≠ none then
        w.write env (src.take (src.length - handleLength src.length))
      else (w.write env (src.take (src.length - handleLength src.length))).w.writeChunk
        (w.write env (src.take (src.length - handleLength src.length))).env
        (w.write env (src.take (src.length - handleLength src.length))).n
        (src.drop (src.length - handleLength src.length)) := by
  rw [AeadWriter.write, if_pos h]

/-- `write` never reports an error, whatever the sink returns. -/
theorem write_err {σ : Type} (w : AeadWriter σ) (env : PoolEnv) (src : Bytes) :
    (w.write env src).err = none := by
  by_cases h : src.length > AeadMaxTextLength
  · rw [write_big_raw w env src h]
    split
    · rename_i h2
      exact absurd (write_err w env _) h2
    · rfl
  · rw [write_small w env src h]
    rfl
termination_by src.length
decreasing_by
  have := handleLength_pos src.length
  simp only [List.length_take]
  rw [AeadMaxTextLength_eq] at *
  omega

theorem write_big {σ : Type} (w : AeadWriter σ) (env : PoolEnv) (src : Bytes)
    (h : src.length > AeadMaxTextLength) :
    w.write env src =
      (w.write env (src.take (src.length - handleLength src.length))).w.writeChunk
        (w.write env (src.take (src.length - handleLength src.length))).env
        (w.write env (src.take (src.length - handleLength src.length))).n
        (src.drop (src.length - handleLength src.length)) := by
  rw [write_big_raw w env src h, if_neg]
  simp [write_err]

/-! ### The writer: the chunks of one `write` -/

theorem chunksOf_small (src : Bytes) (h : ¬ src.length > AeadMaxTextLength) :
    chunksOf src = [src] := by
  rw [chunksOf, if_neg h]

theorem chunksOf_big (src : Bytes) (h : src.length > AeadMaxTextLength) :
    chunksOf src = chunksOf (src.take (src.length - handleLength src.length)) ++
      [src.drop (src.length - handleLength src.length)] := by
  rw [chunksOf, if_pos h]

theorem chunksOf_join (src : Bytes) : (chunksOf src).flatten = src := by
  by_cases h : src.length > AeadMaxTextLength
  · rw [chunksOf_big src h, List.flatten_append, chunksOf_join]
    simp
  · rw [chunksOf_small src h]
    simp
termination_by src.length
decreasing_by
  have := handleLength_pos src.length
  simp only [List.length_take]
  rw [AeadMaxTextLength_eq] at *
  omega

theorem chunksOf_le (src : Bytes) : ∀ c ∈ chunksOf src, c.length ≤ AeadMaxTextLength := by
  by_cases h : src.length > AeadMaxTextLength
  · rw [chunksOf_big src h]
    intro c hc
    rcases List.mem_append.mp hc with hc | hc
    · exact chunksOf_le _ c hc
    · have := handleLength_le src.length h
      rw [List.mem_singleton] at hc
      subst hc
      simp only [List.length_drop]
      omega
  · rw [chunksOf_small src h]
    intro c hc
    rw [List.mem_singleton] at hc
    subst hc
    omega
termination_by src.length
decreasing_by
  have := handleLength_pos src.length
  simp only [List.length_take]
  rw [AeadMaxTextLength_eq] at *
  omega

theorem frames_append (S : AEAD) (cs ds : List Bytes) (nonce : Bytes) :
    frames S nonce (cs ++ ds) =
      frames S nonce cs ++ frames S (BytesIncLittleEndian^[2 * cs.length] nonce) ds := by
  induction cs generalizing nonce with
  | nil => simp [frames]
  | cons c cs ih =>
    rw [List.cons_append, frames, frames, ih, List.length_cons,
      show 2 * (cs.length + 1) = (2 * cs.length + 1) + 1 by ring,
      Function.iterate_succ_apply, Function.iterate_succ_apply, List.cons_append]

theorem feedSink_append {σ : Type} (W : IoWriter σ) (st : σ) (fs gs : List Bytes) :
    feedSink W st (fs ++ gs) = feedSink W (feedSink W st fs) gs := by
  simp [feedSink, List.foldl_append]

theorem feedSink_recording (log fs : List Bytes) : feedSink recordingSink log fs = log ++ fs := by
  induction fs generalizing log with
  | nil => simp [feedSink]
  | cons f fs ih =>
    have := ih (log ++ [f])
    simp only [feedSink, List.foldl_cons] at this ⊢
    rw [show (recordingSink log f).1 = log ++ [f] from rfl, this]
    simp

/-- What one `write` does to the writer: the sink receives, one `Write` call
each and in order, the frames of the pieces `chunksOf src`, and the nonce
moves on by two per piece. -/
theorem write_spec {σ : Type} (w : AeadWriter σ) (env : PoolEnv) (src : Bytes)
    (hS : w.S.FixedOverhead) :
    (w.write env src).w.sink = feedSink w.W w.sink (frames w.S w.nonce (chunksOf src)) ∧
    (w.write env src).w.nonce = BytesIncLittleEndian^[2 * (chunksOf src).length] w.nonce ∧
    (w.write env src).w.S = w.S ∧
    (w.write env src).w.W = w.W ∧
    (w.write env src).n = src.length := by
  by_cases h : src.length > AeadMaxTextLength
  · have hl := handleLength_le src.length h
    obtain ⟨ih1, ih2, ih3, ih4, ih5⟩ :=
      write_spec w env (src.take (src.length - handleLength src.length)) hS
    have hd : (src.drop (src.length - handleLength src.length)).length < 65536 := by
      simp only [List.length_drop]
      rw [AeadMaxTextLength_eq] at hl
      omega
    obtain ⟨c1, c2, c3, c4, c5, _⟩ :=
      writeChunk_spec (w.write env (src.take (src.length - handleLength src.length))).w
        (w.write env (src.take (src.length - handleLength src.length))).env
        (w.write env (src.take (src.length - handleLength src.length))).n
        (src.drop (src.length - handleLength src.length)) (by rw [ih3]; exact hS) hd
    rw [write_big w env src h, chunksOf_big src h, frames_append, feedSink_append]
    refine ⟨?_, ?_, by rw [c3, ih3], by rw [c4, ih4], ?_⟩
    · rw [c1, ih1, ih2, ih3, ih4]
      simp [feedSink, frames]
    · rw [c2, ih2, List.length_append, List.length_singleton,
        show 2 * ((chunksOf (src.take (src.length - handleLength src.length))).length + 1)
          = (2 * (chunksOf (src.take (src.length - handleLength src.length))).length + 1) + 1
          by ring,
        Function.iterate_succ_apply', Function.iterate_succ_apply']
    · rw [c5, ih5]
      simp only [List.length_take, List.length_drop]
      omega
  · have hd : src.length < 65536 := by
      rw [AeadMaxTextLength_eq] at h
      omega
    obtain ⟨c1, c2, c3, c4, c5, _⟩ := writeChunk_spec w env 0 src hS hd
    rw [write_small w env src h, chunksOf_small src h]
    refine ⟨?_, ?_, c3, c4, by rw [c5]; omega⟩
    · rw [c1]
      simp [feedSink, frames]
    · rw [c2]
      rfl
termination_by src.length
decreasing_by
  have := handleLength_pos src.length
  simp only [List.length_take]
  rw [AeadMaxTextLength_eq] at *
  omega

theorem sampleAead_fixedOverhead : sampleAead.FixedOverhead := by
  intro nonce p
  simp [sampleAead]

theorem sampleAead_openInvertsSeal : sampleAead.OpenInvertsSeal := by
  intro nonce p
  simp [sampleAead]

theorem chunksOf_shape (k : Nat) : ∀ (src : Bytes) (r : Nat), 0 < r → r ≤ AeadMaxTextLength →
    src.length = AeadMaxTextLength * k + r →
    ∃ full last, chunksOf src = full ++ [last] ∧ full.length = k ∧
      (∀ c ∈ full, c.length = AeadMaxTextLength) ∧ last.length = r := by
  induction k with
  | zero =>
    intro src r _ hr hlen
    refine ⟨[], src, ?_, rfl, by simp, by omega⟩
    rw [chunksOf_small src (by omega)]
    rfl
  | succ k ih =>
    intro src r h0 hr hlen
    have hbig : src.length > AeadMaxTextLength := by
      rw [hlen, Nat.mul_succ]; omega
    have hh : handleLength src.length = r := by
      unfold handleLength
      rw [hlen]
      rw [AeadMaxTextLength_eq] at *
      split <;> omega
    have hpre : (src.take (src.length - r)).length = AeadMaxTextLength * k + AeadMaxTextLength := by
      rw [List.length_take, hlen, Nat.mul_succ]; omega
    obtain ⟨full, last, e, hfl, hfull, hlast⟩ :=
      ih (src.take (src.length - r)) AeadMaxTextLength (by rw [AeadMaxTextLength_eq]; omega)
        (le_refl _) hpre
    refine ⟨full ++ [last], src.drop (src.length - r), ?_, by simp [hfl], ?_, ?_⟩
    · rw [chunksOf_big src hbig, hh, e]
    · intro c hc
      rcases List.mem_append.mp hc with hc | hc
      · exact hfull c hc
      · rw [List.mem_singleton] at hc
        rw [hc, hlast]
    · rw [List.length_drop, hlen]; omega

/-- C2. A single `Write` of an input of length `16383 * k + r` with
`0 < r ≤ 16383` hands a recording sink exactly `k + 1` chunk frames, in input
order: `k` chunks whose text (and declared length) is 16383 bytes long, then
one of `r` bytes, and the chunk texts concatenated are the input. -/
theorem C2_chunk_boundary_law (S : AEAD) (nonce : Bytes) (log : List Bytes) (env : PoolEnv)
    (src : Bytes) (k r : Nat) (hS : S.FixedOverhead) (hr0 : 0 < r) (hr : r ≤ 16383)
    (hlen : src.length = 16383 * k + r) :
    ∃ (full : List Bytes) (last : Bytes),
      full.length = k ∧ (∀ c ∈ full, c.length = 16383) ∧ last.length = r ∧
      (full ++ [last]).flatten = src ∧
      (AeadWriter.Write { S := S, W := recordingSink, sink := log, nonce := nonce } env src).w.sink
        = log ++ frames S nonce (full ++ [last]) ∧
      (frames S nonce (full ++ [last])).length = k + 1 := by
  obtain ⟨full, last, e, hfl, hfull, hlast⟩ :=
    chunksOf_shape k src r hr0 (by rw [AeadMaxTextLength_eq]; exact hr)
      (by rw [AeadMaxTextLength_eq]; exact hlen)
  have hw := (write_spec { S := S, W := recordingSink, sink := log, nonce := nonce } env src hS).1
  refine ⟨full, last, hfl, ?_, hlast, ?_, ?_, ?_⟩
  · intro c hc
    rw [hfull c hc, AeadMaxTextLength_eq]
  · rw [← e, chunksOf_join]
  · rw [AeadWriter.Write, hw, feedSink_recording, e]
  · have hlenframes : ∀ (cs : List Bytes) (n : Bytes), (frames S n cs).length = cs.length := by
      intro cs
      induction cs with
      | nil => intro n; rfl
      | cons c cs ih => intro n; simp [frames, ih]
    rw [hlenframes]
    simp [hfl]

theorem C2_chunk_boundary_law_witness :
    ∃ (full : List Bytes) (last : Bytes),
      full.length = 1 ∧ (∀ c ∈ full, c.length = 16383) ∧ last.length = 1 ∧
      (full ++ [last]).flatten = List.replicate 16384 7 ∧
      (AeadWriter.Write { S := sampleAead, W := recordingSink, sink := [], nonce := [0, 0] }
          emptyEnv (List.replicate 16384 7)).w.sink
        = [] ++ frames sampleAead [0, 0] (full ++ [last]) ∧
      (frames sampleAead [0, 0] (full ++ [last])).length = 1 + 1 :=
  C2_chunk_boundary_law sampleAead [0, 0] [] emptyEnv (List.replicate 16384 7) 1 1
    sampleAead_fixedOverhead (by decide) (by decide) (List.length_replicate _ _)

/-- C3. Writing a text `P` of at most 16383 bytes at nonce `n` calls the
sink once, with `Seal(n, header)` followed by `Seal(inc n, P)`, where `header`
is the two-byte big-endian length of `P` and the associated data is empty; the
write is `2 + len(P) + 2 * overhead` bytes long, the nonce afterwards is
`inc (inc n)`, and a new writer starts at the all-zero nonce. -/
theorem C3_wire_format_of_one_chunk {σ : Type} (w : AeadWriter σ) (env : PoolEnv) (P : Bytes)
    (hS : w.S.FixedOverhead) (hP : P.length ≤ 16383) :
    (w.Write env P).w.sink =
      (w.W w.sink (w.S.Seal w.nonce [P.length / 256, P.length % 256] [] ++
        w.S.Seal (BytesIncLittleEndian w.nonce) P [])).1 ∧
    beValue [P.length / 256, P.length % 256] = P.length ∧
    isBytes [P.length / 256, P.length % 256] ∧
    (w.S.Seal w.nonce [P.length / 256, P.length % 256] [] ++
        w.S.Seal (BytesIncLittleEndian w.nonce) P []).length = 2 + P.length + 2 * w.S.Overhead ∧
    (w.Write env P).w.nonce = BytesIncLittleEndian (BytesIncLittleEndian w.nonce) ∧
    (w.Write env P).n = P.length ∧
    (∀ (S : AEAD) (W : IoWriter σ) (sink : σ),
      (NewAeadWriter S W sink).nonce = List.replicate S.NonceSize 0) := by
  have hsmall : ¬ P.length > AeadMaxTextLength := by rw [AeadMaxTextLength_eq]; omega
  obtain ⟨c1, c2, _, _, c5, _⟩ := writeChunk_spec w env 0 P hS (by omega)
  have hhdr : PutUint16 P.length = [P.length / 256, P.length % 256] := by
    simp only [PutUint16]
    rw [Nat.mod_eq_of_lt (by omega : P.length / 256 < 256)]
  rw [AeadWriter.Write, write_small w env P hsmall]
  refine ⟨?_, ?_, ?_, ?_, c2, by rw [c5]; omega, fun _ _ _ => rfl⟩
  · rw [c1, frame, hhdr]
  · simp only [beValue, List.foldl]
    omega
  · intro x hx
    simp only [List.mem_cons, List.mem_singleton, List.not_mem_nil, or_false] at hx
    rcases hx with h | h <;> omega
  · rw [List.length_append, hS, hS]
    simp only [List.length_cons, List.length_nil]
    omega

theorem C3_wire_format_of_one_chunk_witness :
    ((NewAeadWriter sampleAead recordingSink []).Write emptyEnv [1, 2, 3]).w.sink
      = [[0, 3, 3, 1, 2, 3, 7]] :=
  (C3_wire_format_of_one_chunk (NewAeadWriter sampleAead recordingSink []) emptyEnv [1, 2, 3]
    sampleAead_fixedOverhead (by decide)).1.trans (by decide)

/-- C5. At a short write of the sink the code does not return an error: the
sink takes 6 of the 7 bytes of the chunk and reports no error, and `Write`
returns `(3, nil)`. -/
theorem C5_short_write_returns_nil :
    (shortSink [] (frame sampleAead [0, 0] [1, 2, 3])).2.1 = 6 ∧
    (frame sampleAead [0, 0] [1, 2, 3]).length = 7 ∧
    (shortSink [] (frame sampleAead [0, 0] [1, 2, 3])).2.2 = none ∧
    ((NewAeadWriter sampleAead shortSink []).Write emptyEnv [1, 2, 3]).w.sink
      = [[0, 3, 3, 1, 2, 3]] ∧
    ((NewAeadWriter sampleAead shortSink []).Write emptyEnv [1, 2, 3]).n = 3 ∧
    ((NewAeadWriter sampleAead shortSink []).Write emptyEnv [1, 2, 3]).err = none := by
  rw [AeadWriter.Write, write_small _ _ _ (by decide)]
  decide

/-- C6. When the sink's write fails with an error the code does not return
it: the sink reports error 5 for the chunk and `Write` returns `(3, nil)`. -/
theorem C6_sink_error_is_dropped :
    (failingSink (Error.other 5) [] (frame sampleAead [0, 0] [1, 2, 3])).2.2
      = some (Error.other 5) ∧
    ((NewAeadWriter sampleAead (failingSink (Error.other 5)) []).Write emptyEnv [1, 2, 3]).n
      = 3 ∧
    ((NewAeadWriter sampleAead (failingSink (Error.other 5)) []).Write emptyEnv [1, 2, 3]).err
      = none := by
  rw [AeadWriter.Write, write_small _ _ _ (by decide)]
  decide

/-! ### The reader: one chunk -/

theorem ReadFull_append (a rest : Bytes) : ReadFull (a ++ rest) a.length = (Except.ok a, rest) := by
  unfold ReadFull
  by_cases h : a.length = 0
  · have : a = [] := List.length_eq_zero.mp h
    subst this
    simp
  · rw [if_neg h, if_pos (by simp)]
    simp

theorem Uint16_PutUint16 (v : Nat) (h : v < 65536) : Uint16 (PutUint16 v) = some v := by
  simp only [PutUint16, Uint16]
  congr 1
  omega

/-- A `Read` with no held buffer on a source that starts with the frame of a
chunk `c`. -/
theorem Read_frame (r : AeadReader) (c rest dst : Bytes) (hbuf : r.buf = none)
    (hR : r.R = frame r.S r.nonce c ++ rest) (hS : r.S.FixedOverhead)
    (hO : r.S.OpenInvertsSeal) (hc : c.length < 65536) :
    r.Read dst = some
      { n := copyCount dst c, err := none, dst := copyInto dst c,
        r := if copyCount dst c < c.length then
            { r with R := rest, nonce := BytesIncLittleEndian (BytesIncLittleEndian r.nonce),
                     buf := some c, start := copyCount dst c }
          else
            { r with R := rest, nonce := BytesIncLittleEndian (BytesIncLittleEndian r.nonce) } } := by
  have h1 : ReadFull r.R (2 + r.S.Overhead)
      = (Except.ok (r.S.Seal r.nonce (PutUint16 c.length) []),
         r.S.Seal (BytesIncLittleEndian r.nonce) c [] ++ rest) := by
    have := ReadFull_append (r.S.Seal r.nonce (PutUint16 c.length) [])
      (r.S.Seal (BytesIncLittleEndian r.nonce) c [] ++ rest)
    rw [hS, PutUint16_length] at this
    rw [hR, frame, List.append_assoc]
    exact this
  have h2 : ReadFull (r.S.Seal (BytesIncLittleEndian r.nonce) c [] ++ rest)
      (c.length + r.S.Overhead)
      = (Except.ok (r.S.Seal (BytesIncLittleEndian r.nonce) c []), rest) := by
    have := ReadFull_append (r.S.Seal (BytesIncLittleEndian r.nonce) c []) rest
    rw [hS] at this
    exact this
  unfold AeadReader.Read
  simp only [hbuf, h1, hO r.nonce, Uint16_PutUint16 c.length hc, h2,
    hO (BytesIncLittleEndian r.nonce)]
  split <;> rfl

/-! ### The reader on a stream of frames -/

theorem copyInto_take (dst src : Bytes) :
    (copyInto dst src).take (copyCount dst src) = src.take dst.length := by
  simp only [copyInto, copyCount]
  rw [List.take_left']
  · rw [List.take_eq_take]
    simp only [Nat.min_assoc, Nat.min_self]
  · simp only [List.length_take]
    omega

theorem frame_length (S : AEAD) (hS : S.FixedOverhead) (nonce c : Bytes) :
    (frame S nonce c).length = 2 + S.Overhead + (c.length + S.Overhead) := by
  rw [frame, List.length_append, hS, hS, PutUint16_length]

theorem Read_held (S : AEAD) (R nonce held : Bytes) (start : Nat) (dst : Bytes)
    (hst : start ≤ held.length) :
    ∃ res, AeadReader.Read { S := S, R := R, nonce := nonce, buf := some held, start := start } dst
        = some res ∧
      res.r.S = S ∧ res.r.R = R ∧ res.r.nonce = nonce ∧ res.err = none ∧
      res.n = min dst.length (held.length - start) ∧
      res.dst.take res.n = (held.drop start).take dst.length ∧
      res.r.pending = held.drop (start + res.n) ∧
      (∀ h, res.r.buf = some h → res.r.start < h.length) ∧
      (res.r.buf = none ↔ held.length ≤ start + res.n) := by
  have hn : copyCount dst (held.drop start) = min dst.length (held.length - start) := by
    simp [copyCount]
  by_cases hfin : start + copyCount dst (held.drop start) ≥ held.length
  · simp only [AeadReader.Read, if_neg (by omega : ¬ start > held.length), if_pos hfin]
    refine ⟨_, rfl, rfl, rfl, rfl, rfl, hn, copyInto_take _ _, ?_, ?_, ?_⟩
    · simp only [AeadReader.pending]
      rw [List.drop_of_length_le hfin]
    · intro h hh
      simp at hh
    · simp only [true_iff]
      exact hfin
  · simp only [AeadReader.Read, if_neg (by omega : ¬ start > held.length), if_neg hfin]
    refine ⟨_, rfl, rfl, rfl, rfl, rfl, hn, copyInto_take _ _, ?_, ?_, ?_⟩
    · simp only [AeadReader.pending]
    · intro h hh
      simp only [Option.some.injEq] at hh
      subst hh
      simp only
      omega
    · simp only [reduceCtorEq, false_iff]
      omega

/-- One `Read` at a chunk boundary: it does not panic, what it returns followed
by what is still pending is what was pending before, and with a non-empty
destination the amount of pending work goes down. -/
theorem Read_step (r : AeadReader) (cs : List Bytes) (dst : Bytes) (hS : r.S.FixedOverhead)
    (hO : r.S.OpenInvertsSeal) (hr : ReaderAt r cs) :
    ∃ res cs', r.Read dst = some res ∧ ReaderAt res.r cs' ∧ res.r.S = r.S ∧
      res.dst.take res.n ++ (res.r.pending ++ cs'.flatten) = r.pending ++ cs.flatten ∧
      (dst ≠ [] →
        res.r.pending.length + cs'.flatten.length + cs'.length
          ≤ r.pending.length + cs.flatten.length + cs.length - 1) := by
  obtain ⟨hR, hcs, hheld⟩ := hr
  obtain ⟨S, R, nonce, buf, start⟩ := r
  simp only at hR hcs hheld hS hO
  cases buf with
  | some held =>
    have hst := hheld held rfl
    obtain ⟨res, h1, h2, h3, h4, _, h6, h7, h8, h9, _⟩ :=
      Read_held S R nonce held start dst (Nat.le_of_lt hst)
    refine ⟨res, cs, h1, ⟨by rw [h2, h3, h4]; exact hR, hcs, h9⟩, h2, ?_, ?_⟩
    · rw [h7, h8, ← List.append_assoc]
      congr 1
      simp only [AeadReader.pending]
      have hdd : held.drop (start + res.n) = (held.drop start).drop res.n := by
        rw [List.drop_drop, Nat.add_comm]
      rw [hdd, h6]
      by_cases hd : dst.length ≤ held.length - start
      · rw [Nat.min_eq_left hd, List.take_append_drop]
      · have e1 : (held.drop start).take dst.length = held.drop start :=
          List.take_of_length_le (by simp only [List.length_drop]; omega)
        have e2 : (held.drop start).drop (min dst.length (held.length - start)) = [] :=
          List.drop_of_length_le (by simp only [List.length_drop]; omega)
        rw [e1, e2, List.append_nil]
    · intro hne
      have : 0 < dst.length := List.length_pos.mpr hne
      rw [h8, h6]
      simp only [AeadReader.pending, List.length_drop]
      omega
  | none =>
    cases cs with
    | nil =>
      have hR0 : R = [] := by simpa [frames] using hR
      have hrf : ReadFull [] (2 + S.Overhead) = (Except.error Error.EOF, []) := by
        simp only [ReadFull, List.length_nil]
        rw [if_neg (by omega), if_neg (by omega)]
        simp
      simp only [AeadReader.Read, hR0, hrf]
      refine ⟨_, [], rfl, ⟨by simp [frames], by simp, by simp⟩, rfl, ?_, ?_⟩
      · simp [AeadReader.pending]
      · intro _
        simp [AeadReader.pending]
    | cons c cs' =>
      have hc : c.length ≤ AeadMaxTextLength := hcs c (by simp)
      rw [AeadMaxTextLength_eq] at hc
      have hR' : R = frame S nonce c ++
          (frames S (BytesIncLittleEndian (BytesIncLittleEndian nonce)) cs').flatten := by
        rw [hR, frames, List.flatten_cons]
      have hread := Read_frame { S := S, R := R, nonce := nonce, buf := none, start := start }
        c _ dst rfl hR' hS hO (by omega)
      by_cases hlt : copyCount dst c < c.length
      · rw [if_pos hlt] at hread
        refine ⟨_, cs', hread, ⟨rfl, fun c' hc' => hcs c' (by simp [hc']), ?_⟩, rfl, ?_, ?_⟩
        · intro held hh
          simp only [Option.some.injEq] at hh
          subst hh
          exact hlt
        · have hlen : copyCount dst c = dst.length := by
            simp only [copyCount] at hlt ⊢
            omega
          simp only [copyInto_take, AeadReader.pending, List.nil_append, List.flatten_cons]
          rw [hlen, ← List.append_assoc, List.take_append_drop]
        · intro _
          simp only [AeadReader.pending, List.length_nil, List.flatten_cons, List.length_append,
            List.length_cons, List.length_drop]
          omega
      · rw [if_neg hlt] at hread
        refine ⟨_, cs', hread, ⟨rfl, fun c' hc' => hcs c' (by simp [hc']), by simp⟩, rfl, ?_, ?_⟩
        · have hlen : c.length ≤ dst.length := by
            simp only [copyCount] at hlt
            omega
          simp only [copyInto_take, AeadReader.pending, List.nil_append, List.flatten_cons]
          rw [List.take_of_length_le hlen]
        · intro _
          simp only [AeadReader.pending, List.length_nil, List.flatten_cons, List.length_append,
            List.length_cons]
          omega

theorem frames_flatten_length (S : AEAD) (hS : S.FixedOverhead) (cs : List Bytes) :
    ∀ nonce, cs.flatten.length + 2 * cs.length ≤ (frames S nonce cs).flatten.length := by
  induction cs with
  | nil => intro nonce; simp [frames]
  | cons c cs ih =>
    intro nonce
    have := ih (BytesIncLittleEndian (BytesIncLittleEndian nonce))
    simp only [frames, List.flatten_cons, List.length_append, List.length_cons,
      frame_length S hS]
    omega

/-- Successive reads at a chunk boundary. -/
theorem ReadAll_spec (dsts : List Bytes) : ∀ (r : AeadReader) (cs : List Bytes),
    r.S.FixedOverhead → r.S.OpenInvertsSeal → ReaderAt r cs →
    ∃ out r' cs', r.ReadAll dsts = some (out, r') ∧ ReaderAt r' cs' ∧ r'.S = r.S ∧
      out ++ (r'.pending ++ cs'.flatten) = r.pending ++ cs.flatten ∧
      ((∀ d ∈ dsts, d ≠ []) →
        r'.pending.length + cs'.flatten.length + cs'.length
          ≤ r.pending.length + cs.flatten.length + cs.length - dsts.length) := by
  induction dsts with
  | nil =>
    intro r cs _ _ hr
    exact ⟨[], r, cs, rfl, hr, rfl, by simp, fun _ => by simp⟩
  | cons dst dsts ih =>
    intro r cs hS hO hr
    obtain ⟨res, cs1, h1, h2, h3, h4, h5⟩ := Read_step r cs dst hS hO hr
    obtain ⟨out, r', cs', k1, k2, k3, k4, k5⟩ :=
      ih res.r cs1 (by rw [h3]; exact hS) (by rw [h3]; exact hO) h2
    refine ⟨res.dst.take res.n ++ out, r', cs', ?_, k2, by rw [k3, h3], ?_, ?_⟩
    · simp only [AeadReader.ReadAll, h1, k1]
    · rw [List.append_assoc, k4, h4]
    · intro hne
      have a1 := h5 (hne dst (by simp))
      have a2 := k5 (fun d hd => hne d (by simp [hd]))
      simp only [List.length_cons]
      omega

/-- Successive writes: the sink receives the frames of all pieces in order. -/
theorem WriteAll_spec {σ : Type} (pieces : List Bytes) : ∀ (w : AeadWriter σ) (env : PoolEnv),
    w.S.FixedOverhead →
    (w.WriteAll env pieces).1.sink
      = feedSink w.W w.sink (frames w.S w.nonce (pieces.map chunksOf).flatten) := by
  induction pieces with
  | nil => intro w env _; rfl
  | cons p ps ih =>
    intro w env hS
    obtain ⟨h1, h2, h3, h4, _⟩ := write_spec w env p hS
    have := ih (w.Write env p).w (w.Write env p).env (by
      rw [AeadWriter.Write, h3]; exact hS)
    simp only [AeadWriter.Write] at this
    rw [AeadWriter.WriteAll]
    simp only [AeadWriter.Write]
    rw [this, h1, h2, h3, h4, List.map_cons, List.flatten_cons, frames_append, feedSink_append]

theorem flatten_map_chunksOf (pieces : List Bytes) :
    (pieces.map chunksOf).flatten.flatten = pieces.flatten := by
  induction pieces with
  | nil => rfl
  | cons p ps ih =>
    rw [List.map_cons, List.flatten_cons, List.flatten_append, ih, chunksOf_join,
      List.flatten_cons]

/-- C1, amended. Round trip. For a cipher with a fixed overhead whose `Open` inverts
`Seal`, any pieces written by successive `Write` calls on a fresh writer and
any destination slices used for successive `Read` calls on a fresh reader fed
with the bytes the sink received: no read panics, the bytes returned form a
prefix of the plaintext, they are the whole plaintext once the reader has
consumed every chunk, and that happens whenever the destinations are non-empty
and at least as many as the wire bytes. -/
theorem C1_round_trip (S : AEAD) (hS : S.FixedOverhead) (hO : S.OpenInvertsSeal)
    (pieces : List Bytes) (env : PoolEnv) (dsts : List Bytes) :
    ∃ out r',
      (NewAeadReader S
          ((NewAeadWriter S recordingSink []).WriteAll env pieces).1.sink.flatten).ReadAll dsts
        = some (out, r') ∧
      out <+: pieces.flatten ∧
      (r'.R = [] ∧ r'.buf = none → out = pieces.flatten) ∧
      ((∀ d ∈ dsts, d ≠ []) →
        ((NewAeadWriter S recordingSink []).WriteAll env pieces).1.sink.flatten.length
          ≤ dsts.length →
        out = pieces.flatten ∧ r'.R = [] ∧ r'.buf = none) := by
  have hw : ((NewAeadWriter S recordingSink []).WriteAll env pieces).1.sink
      = frames S (List.replicate S.NonceSize 0) (pieces.map chunksOf).flatten := by
    rw [WriteAll_spec pieces (NewAeadWriter S recordingSink []) env hS]
    simp only [NewAeadWriter]
    rw [feedSink_recording, List.nil_append]
  rw [hw]
  generalize hcs : (pieces.map chunksOf).flatten = cs
  have hflat : cs.flatten = pieces.flatten := by rw [← hcs, flatten_map_chunksOf]
  have hle : ∀ c ∈ cs, c.length ≤ AeadMaxTextLength := by
    intro c hc
    rw [← hcs] at hc
    obtain ⟨l, hl, hcl⟩ := List.mem_flatten.mp hc
    obtain ⟨p, _, hp⟩ := List.mem_map.mp hl
    rw [← hp] at hcl
    exact chunksOf_le p c hcl
  have hr0 : ReaderAt (NewAeadReader S (frames S (List.replicate S.NonceSize 0) cs).flatten) cs :=
    ⟨rfl, hle, by simp [NewAeadReader]⟩
  obtain ⟨out, r', cs', k1, k2, k3, k4, k5⟩ := ReadAll_spec dsts _ cs hS hO hr0
  have hp0 : (NewAeadReader S (frames S (List.replicate S.NonceSize 0) cs).flatten).pending = [] :=
    rfl
  rw [hp0, List.nil_append, hflat] at k4
  rw [hp0, hflat] at k5
  have hS' : r'.S.FixedOverhead := by rw [k3]; exact hS
  have hdone : r'.R = [] → r'.buf = none → out = pieces.flatten := by
    intro hR hb
    have hl := frames_flatten_length r'.S hS' cs' r'.nonce
    rw [← k2.1, hR] at hl
    have hcs' : cs' = [] := by
      apply List.length_eq_zero.mp
      simp only [List.length_nil] at hl
      omega
    rw [← k4, hcs']
    simp [AeadReader.pending, hb]
  refine ⟨out, r', k1, ⟨_, k4⟩, fun h => hdone h.1 h.2, ?_⟩
  intro hne hlen
  have hwire := frames_flatten_length S hS cs (List.replicate S.NonceSize 0)
  rw [hflat] at hwire
  have h0 := k5 hne
  simp only [List.length_nil, Nat.zero_add] at h0
  have hcs' : cs' = [] := List.length_eq_zero.mp (by omega)
  have hpend : r'.pending = [] := List.length_eq_zero.mp (by omega)
  have hb : r'.buf = none := by
    cases hbuf : r'.buf with
    | none => rfl
    | some held =>
      have := k2.2.2 held hbuf
      simp only [AeadReader.pending, hbuf] at hpend
      have hl := congrArg List.length hpend
      simp only [List.length_drop, List.length_nil] at hl
      omega
  have hR : r'.R = [] := by rw [k2.1, hcs']; rfl
  exact ⟨hdone hR hb, hR, hb⟩

theorem sample_wire :
    ((NewAeadWriter sampleAead recordingSink []).WriteAll emptyEnv
      [[1, 2, 3], [], [4]]).1.sink = [[0, 3, 3, 1, 2, 3, 7], [0, 0, 2, 3], [0, 1, 5, 4, 9]] := by
  simp only [AeadWriter.WriteAll, AeadWriter.Write, write_small _ _ [1, 2, 3] (by decide),
    write_small _ _ [] (by decide), write_small _ _ [4] (by decide)]
  decide

theorem C1_round_trip_witness :
    ∃ out r',
      (NewAeadReader sampleAead
          ((NewAeadWriter sampleAead recordingSink []).WriteAll emptyEnv
            [[1, 2, 3], [], [4]]).1.sink.flatten).ReadAll
          [[0, 0], [0], [0, 0, 0], [0, 0], [0], [0], [0], [0], [0], [0], [0], [0], [0], [0],
            [0], [0]]
        = some (out, r') ∧
      out = [1, 2, 3, 4] ∧ r'.R = [] ∧ r'.buf = none := by
  obtain ⟨out, r', h1, _, _, h4⟩ :=
    C1_round_trip sampleAead sampleAead_fixedOverhead sampleAead_openInvertsSeal
      [[1, 2, 3], [], [4]] emptyEnv
      [[0, 0], [0], [0, 0, 0], [0, 0], [0], [0], [0], [0], [0], [0], [0], [0], [0], [0],
        [0], [0]]
  have h := h4 (by decide) (by rw [sample_wire]; decide)
  exact ⟨out, r', h1, h.1, h.2.1, h.2.2⟩

theorem plainAead_openInvertsSeal : plainAead.OpenInvertsSeal := by
  intro nonce p
  rfl

/-- C1, as stated, fails: `Open` of the sample cipher `plainAead` inverts its
`Seal`, yet a fresh reader over what a fresh writer sent for `[1, 2, 3]`
returns `[1, 2, 3, 0]` and has then consumed the whole stream. -/
theorem C1_round_trip_needs_fixed_overhead :
    plainAead.OpenInvertsSeal ∧
    ((NewAeadWriter plainAead recordingSink []).WriteAll emptyEnv [[1, 2, 3]]).1.sink
      = [[0, 3, 0, 1, 2, 3, 0]] ∧
    (∃ r',
      (NewAeadReader plainAead
          ((NewAeadWriter plainAead recordingSink []).WriteAll emptyEnv
            [[1, 2, 3]]).1.sink.flatten).ReadAll [[0, 0, 0, 0]]
        = some ([1, 2, 3, 0], r') ∧ r'.R = [] ∧ r'.buf = none) ∧
    [1, 2, 3, 0] ≠ [[1, 2, 3]].flatten := by
  have hw : ((NewAeadWriter plainAead recordingSink []).WriteAll emptyEnv [[1, 2, 3]]).1.sink
      = [[0, 3, 0, 1, 2, 3, 0]] := by
    simp only [AeadWriter.WriteAll, AeadWriter.Write, write_small _ _ [1, 2, 3] (by decide)]
    decide
  refine ⟨plainAead_openInvertsSeal, hw, ?_, by decide⟩
  rw [hw]
  exact ⟨_, rfl, rfl, rfl⟩

/-! ### Tampering -/

theorem flipBit_length (b : Bytes) (i j : Nat) : (flipBit b i j).length = b.length := by
  simp [flipBit]

theorem flipBit_ne (b : Bytes) (i j : Nat) (hi : i < b.length) : flipBit b i j ≠ b := by
  intro h
  have h1 : (flipBit b i j).getD i 0 = b.getD i 0 := by rw [h]
  have h2 : (flipBit b i j).getD i 0 = b.getD i 0 ^^^ 2 ^ j := by
    simp [flipBit, List.getD_eq_getElem?_getD, List.getElem?_set, hi]
  rw [h2] at h1
  have h3 : b.getD i 0 ^^^ 2 ^ j = b.getD i 0 ^^^ 0 := by rw [h1, Nat.xor_zero]
  have h4 := Nat.xor_right_inj.mp h3
  exact absurd h4 (by positivity)

/-- A `Read` with no held buffer on a source that starts with a byte sequence
as long as the frame of `P` but different from it, when the cipher accepts
under the two nonces of the chunk nothing but what the writer sealed. -/
theorem Read_tampered (S : AEAD) (n P wire' rest dst : Bytes) (start : Nat)
    (hS : S.FixedOverhead) (hP : P.length ≤ 16383)
    (hhdr : S.Open n (S.Seal n (PutUint16 P.length) []) [] = Except.ok (PutUint16 P.length))
    (h1 : ∀ ct, ct ≠ S.Seal n (PutUint16 P.length) [] → ∃ e, S.Open n ct [] = Except.error e)
    (h2 : ∀ ct, ct ≠ S.Seal (BytesIncLittleEndian n) P [] →
      ∃ e, S.Open (BytesIncLittleEndian n) ct [] = Except.error e)
    (hlen : wire'.length = (frame S n P).length) (hne : wire' ≠ frame S n P) :
    ∃ res e,
      AeadReader.Read { S := S, R := wire' ++ rest, nonce := n, buf := none, start := start } dst
        = some res ∧
      res.n = 0 ∧ res.err = some e ∧ res.dst = dst ∧ res.r.buf = none := by
  rw [frame_length S hS] at hlen
  have hsplit : wire' = wire'.take (2 + S.Overhead) ++ wire'.drop (2 + S.Overhead) :=
    (List.take_append_drop _ _).symm
  have hAl : (wire'.take (2 + S.Overhead)).length = 2 + S.Overhead := by
    rw [List.length_take]; omega
  have hBl : (wire'.drop (2 + S.Overhead)).length = P.length + S.Overhead := by
    rw [List.length_drop]; omega
  generalize wire'.take (2 + S.Overhead) = A' at hsplit hAl
  generalize wire'.drop (2 + S.Overhead) = B' at hsplit hBl
  subst hsplit
  have r1 : ReadFull (A' ++ B' ++ rest) (2 + S.Overhead) = (Except.ok A', B' ++ rest) := by
    rw [← hAl, List.append_assoc]
    exact ReadFull_append A' (B' ++ rest)
  have r2 : ReadFull (B' ++ rest) (P.length + S.Overhead) = (Except.ok B', rest) := by
    rw [← hBl]
    exact ReadFull_append B' rest
  by_cases hA : A' = S.Seal n (PutUint16 P.length) []
  · have hB : B' ≠ S.Seal (BytesIncLittleEndian n) P [] := by
      intro hB
      exact hne (by rw [hA, hB, frame])
    obtain ⟨e, he⟩ := h2 B' hB
    subst hA
    simp only [AeadReader.Read, r1, hhdr, Uint16_PutUint16 P.length (by omega), r2, he]
    exact ⟨_, e, rfl, rfl, rfl, rfl, rfl⟩
  · obtain ⟨e, he⟩ := h1 A' hA
    simp only [AeadReader.Read, r1, he]
    exact ⟨_, e, rfl, rfl, rfl, rfl, rfl⟩

/-- C7. Tamper detection. For a cipher that, under the two nonces of a chunk,
opens nothing but what the writer sealed: after one bit of the bytes written
for the chunk (sealed header or sealed text) is flipped, the paired `Read`
returns 0 bytes and a non-nil error, leaves `dst` as it was and holds no
buffer. -/
theorem C7_tamper_detection (S : AEAD) (n P rest dst : Bytes) (start : Nat) (env : PoolEnv)
    (i j : Nat) (hS : S.FixedOverhead) (hP : P.length ≤ 16383)
    (hhdr : S.Open n (S.Seal n (PutUint16 P.length) []) [] = Except.ok (PutUint16 P.length))
    (h1 : ∀ ct, ct ≠ S.Seal n (PutUint16 P.length) [] → ∃ e, S.Open n ct [] = Except.error e)
    (h2 : ∀ ct, ct ≠ S.Seal (BytesIncLittleEndian n) P [] →
      ∃ e, S.Open (BytesIncLittleEndian n) ct [] = Except.error e)
    (hi : i < (AeadWriter.Write { S := S, W := recordingSink, sink := [], nonce := n }
      env P).w.sink.flatten.length)
    (_hj : j < 8) :
    ∃ res e,
      AeadReader.Read
        { S := S,
          R := flipBit (AeadWriter.Write { S := S, W := recordingSink, sink := [], nonce := n }
            env P).w.sink.flatten i j ++ rest,
          nonce := n, buf := none, start := start } dst = some res ∧
      res.n = 0 ∧ res.err = some e ∧ res.dst = dst ∧ res.r.buf = none := by
  have hsmall : ¬ P.length > AeadMaxTextLength := by rw [AeadMaxTextLength_eq]; omega
  have hw : (AeadWriter.Write { S := S, W := recordingSink, sink := [], nonce := n }
      env P).w.sink.flatten = frame S n P := by
    rw [AeadWriter.Write, write_small _ _ _ hsmall,
      (writeChunk_spec { S := S, W := recordingSink, sink := [], nonce := n } env 0 P hS
        (by omega)).1]
    simp [recordingSink]
  rw [hw] at hi ⊢
  exact Read_tampered S n P _ rest dst start hS hP hhdr h1 h2 (flipBit_length _ _ _)
    (flipBit_ne _ _ _ hi)

theorem sessionAead_fixedOverhead (sealed : Bytes → Bytes) :
    (sessionAead sealed).FixedOverhead := by
  intro nonce p
  simp [sessionAead]

theorem sessionAead_rejects (sealed : Bytes → Bytes) (nonce ct : Bytes)
    (h : ct ≠ (sessionAead sealed).Seal nonce (sealed nonce) []) :
    ∃ e, (sessionAead sealed).Open nonce ct [] = Except.error e := by
  refine ⟨Error.message "cipher: message authentication failed", ?_⟩
  simp only [sessionAead] at h ⊢
  rw [if_neg h]

theorem C7_tamper_detection_witness :
    ∃ res e,
      AeadReader.Read
        { S := sessionAead sampleSession,
          R := flipBit (AeadWriter.Write
              { S := sessionAead sampleSession, W := recordingSink, sink := [], nonce := [0, 0] }
              emptyEnv [1, 2, 3]).w.sink.flatten 4 0 ++ [],
          nonce := [0, 0], buf := none, start := 0 } [9, 9, 9, 9] = some res ∧
      res.n = 0 ∧ res.err = some e ∧ res.dst = [9, 9, 9, 9] ∧ res.r.buf = none :=
  C7_tamper_detection (sessionAead sampleSession) [0, 0] [1, 2, 3] [] [9, 9, 9, 9] 0 emptyEnv 4 0
    (sessionAead_fixedOverhead sampleSession) (by decide) (by rfl)
    (fun ct h => sessionAead_rejects sampleSession [0, 0] ct h)
    (fun ct h => sessionAead_rejects sampleSession [1, 0] ct h)
    (by rw [AeadWriter.Write, write_small _ _ _ (by decide)]; decide) (by decide)

/-! ### Held-over plaintext -/

/-- C8. Held-over plaintext. (1) When the decoded text `c` of a chunk is
longer than `dst`, `Read` returns its first `len(dst)` bytes and retains the
rest; a following `Read` with room for the rest returns it and releases the
buffer, and the `Read` after that decodes the next chunk `c2`. (2) In any
state that retains bytes, `Read` returns the next
`min(len(d), remaining)` retained bytes, leaves source and nonce untouched,
and keeps the buffer exactly when bytes remain. -/
theorem C8_held_over_plaintext (S : AEAD) (n c c2 rest dst d2 d3 : Bytes) (s0 : Nat)
    (held R' nonce' d : Bytes) (start : Nat)
    (hS : S.FixedOverhead) (hO : S.OpenInvertsSeal)
    (hc : c.length ≤ 16383) (hc2 : c2.length ≤ 16383)
    (hd : dst.length < c.length) (hd2 : c.length - dst.length ≤ d2.length)
    (hst : start ≤ held.length) :
    (∃ res1 res2 res3,
      AeadReader.Read
        { S := S,
          R := frame S n c ++
            (frame S (BytesIncLittleEndian (BytesIncLittleEndian n)) c2 ++ rest),
          nonce := n, buf := none, start := s0 } dst = some res1 ∧
      res1.n = dst.length ∧ res1.err = none ∧ res1.dst = c.take dst.length ∧
      res1.r.buf = some c ∧ res1.r.start = dst.length ∧
      res1.r.Read d2 = some res2 ∧
      res2.n = c.length - dst.length ∧ res2.err = none ∧
      res2.dst.take res2.n = c.drop dst.length ∧
      res2.r.R = res1.r.R ∧ res2.r.nonce = res1.r.nonce ∧ res2.r.buf = none ∧
      res2.r.Read d3 = some res3 ∧
      res3.n = min d3.length c2.length ∧ res3.err = none ∧
      res3.dst.take res3.n = c2.take d3.length ∧ res3.r.R = rest) ∧
    (∃ res,
      AeadReader.Read { S := S, R := R', nonce := nonce', buf := some held, start := start } d
        = some res ∧
      res.n = min d.length (held.length - start) ∧ res.err = none ∧
      res.dst.take res.n = (held.drop start).take d.length ∧
      res.r.R = R' ∧ res.r.nonce = nonce' ∧
      res.r.pending = held.drop (start + res.n) ∧
      (res.r.buf = none ↔ held.length ≤ start + res.n)) := by
  constructor
  · have hcount : copyCount dst c = dst.length := by
      simp only [copyCount]; omega
    have h1 := Read_frame
      { S := S,
        R := frame S n c ++ (frame S (BytesIncLittleEndian (BytesIncLittleEndian n)) c2 ++ rest),
        nonce := n, buf := none, start := s0 } c _ dst rfl rfl hS hO (by omega)
    rw [if_pos (by rw [hcount]; exact hd)] at h1
    simp only [hcount] at h1
    obtain ⟨res2, k1, k2, k3, k4, k5, k6, k7, k8, _, k10⟩ :=
      Read_held S (frame S (BytesIncLittleEndian (BytesIncLittleEndian n)) c2 ++ rest)
        (BytesIncLittleEndian (BytesIncLittleEndian n)) c dst.length d2 (Nat.le_of_lt hd)
    have hn2 : res2.n = c.length - dst.length := by rw [k6]; omega
    have hb2 : res2.r.buf = none := k10.mpr (by omega)
    have h3 := Read_frame res2.r c2 rest d3 hb2 (by rw [k3, k2, k4]) (by rw [k2]; exact hS)
      (by rw [k2]; exact hO) (by omega)
    refine ⟨_, res2, _, h1, rfl, rfl, ?_, rfl, rfl, k1, hn2, k5, ?_, k3, k4, hb2, h3, rfl, rfl,
      copyInto_take _ _, ?_⟩
    · simp only [copyInto]
      rw [Nat.min_eq_left (Nat.le_of_lt hd), List.drop_length, List.append_nil]
    · rw [k7]
      exact List.take_of_length_le (by rw [List.length_drop]; exact hd2)
    · split <;> rfl
  · obtain ⟨res, k1, _, k3, k4, k5, k6, k7, k8, _, k10⟩ := Read_held S R' nonce' held start d hst
    exact ⟨res, k1, k6, k5, k7, k3, k4, k8, k10⟩

theorem C8_held_over_plaintext_witness :
    (∃ res1 res2 res3,
      AeadReader.Read
        { S := sampleAead,
          R := frame sampleAead [0, 0] [1, 2, 3] ++
            (frame sampleAead (BytesIncLittleEndian (BytesIncLittleEndian [0, 0])) [4, 5] ++ []),
          nonce := [0, 0], buf := none, start := 0 } [0, 0] = some res1 ∧
      res1.n = [0, 0].length ∧ res1.err = none ∧ res1.dst = [1, 2, 3].take [0, 0].length ∧
      res1.r.buf = some [1, 2, 3] ∧ res1.r.start = [0, 0].length ∧
      res1.r.Read [0, 0] = some res2 ∧
      res2.n = [1, 2, 3].length - [0, 0].length ∧ res2.err = none ∧
      res2.dst.take res2.n = [1, 2, 3].drop [0, 0].length ∧
      res2.r.R = res1.r.R ∧ res2.r.nonce = res1.r.nonce ∧ res2.r.buf = none ∧
      res2.r.Read [0, 0, 0] = some res3 ∧
      res3.n = min [0, 0, 0].length [4, 5].length ∧ res3.err = none ∧
      res3.dst.take res3.n = [4, 5].take [0, 0, 0].length ∧ res3.r.R = []) ∧
    (∃ res,
      AeadReader.Read
        { S := sampleAead, R := [7], nonce := [2, 0], buf := some [1, 2, 3], start := 1 } [0]
        = some res ∧
      res.n = min [0].length ([1, 2, 3].length - 1) ∧ res.err = none ∧
      res.dst.take res.n = ([1, 2, 3].drop 1).take [0].length ∧
      res.r.R = [7] ∧ res.r.nonce = [2, 0] ∧
      res.r.pending = [1, 2, 3].drop (1 + res.n) ∧
      (res.r.buf = none ↔ [1, 2, 3].length ≤ 1 + res.n)) :=
  C8_held_over_plaintext sampleAead [0, 0] [1, 2, 3] [4, 5] [] [0, 0] [0, 0] [0, 0, 0] 0
    [1, 2, 3] [7] [2, 0] [0] 1 sampleAead_fixedOverhead sampleAead_openInvertsSeal
    (by decide) (by decide) (by decide) (by decide) (by decide)

/-! ### The proxy dialer -/

/-- C10. For a proxy URL that parses and whose scheme is none of `http`,
`ntlm`, `socks5`, `dialTcpByProxy` returns a nil connection and the error
"Proxy URL scheme must be http or socks5 or ntlm, not [scheme]", and performs
no network operation. -/
theorem C10_unsupported_proxy_scheme (env : Net) (proxyURL addr : String) (u : URL)
    (hparse : env.Parse proxyURL = Except.ok u)
    (hscheme : u.Scheme ≠ "http" ∧ u.Scheme ≠ "ntlm" ∧ u.Scheme ≠ "socks5") :
    (dialTcpByProxy env proxyURL addr).c = none ∧
    (dialTcpByProxy env proxyURL addr).err = some (Error.message
      ("Proxy URL scheme must be http or socks5 or ntlm, not [" ++ u.Scheme ++ "]")) ∧
    (dialTcpByProxy env proxyURL addr).trace = [] := by
  obtain ⟨h1, h2, h3⟩ := hscheme
  simp only [dialTcpByProxy, hparse, if_neg h1, if_neg h2, if_neg h3, and_self]

theorem C10_unsupported_proxy_scheme_witness :
    (dialTcpByProxy sampleNet "ftp://proxy:21" "example.com:80").c = none ∧
    (dialTcpByProxy sampleNet "ftp://proxy:21" "example.com:80").err = some (Error.message
      ("Proxy URL scheme must be http or socks5 or ntlm, not [" ++ "ftp" ++ "]")) ∧
    (dialTcpByProxy sampleNet "ftp://proxy:21" "example.com:80").trace = [] :=
  C10_unsupported_proxy_scheme sampleNet "ftp://proxy:21" "example.com:80"
    { Scheme := "ftp", Host := "proxy:21", User := none } (by rfl)
    (by decide)

/-! ### Nonce wrap -/

theorem iterate_inc_length (k : Nat) (b : Bytes) :
    (BytesIncLittleEndian^[k] b).length = b.length := by
  induction k generalizing b with
  | zero => rfl
  | succ k ih => rw [Function.iterate_succ_apply, ih, BytesIncLittleEndian_length]

theorem iterate_inc_isBytes (k : Nat) (b : Bytes) (hb : isBytes b) :
    isBytes (BytesIncLittleEndian^[k] b) := by
  induction k generalizing b with
  | zero => exact hb
  | succ k ih =>
    rw [Function.iterate_succ_apply]
    exact ih _ (isBytes_inc b hb)

theorem leValue_iterate_inc (k : Nat) (b : Bytes) (hb : isBytes b) :
    leValue (BytesIncLittleEndian^[k] b) = (leValue b + k) % 256 ^ b.length := by
  induction k with
  | zero =>
    rw [Function.iterate_zero_apply, Nat.add_zero, Nat.mod_eq_of_lt (leValue_lt b hb)]
  | succ k ih =>
    rw [Function.iterate_succ_apply', leValue_inc _ (iterate_inc_isBytes k b hb), ih,
      iterate_inc_length, Nat.mod_add_mod, Nat.add_assoc]

theorem leValue_replicate_zero (N : Nat) : leValue (List.replicate N 0) = 0 := by
  induction N with
  | zero => rfl
  | succ N ih => simp [List.replicate_succ, leValue, ih]

theorem eq_replicate_of_leValue_zero (b : Bytes) (h : leValue b = 0) :
    b = List.replicate b.length 0 := by
  induction b with
  | nil => rfl
  | cons x xs ih =>
    simp only [leValue] at h
    have hx : x = 0 := by omega
    have hxs : leValue xs = 0 := by omega
    rw [List.length_cons, List.replicate_succ, ← ih hxs, hx]

/-- C14. Nonce wrap. For every nonce length `N`, applying
`BytesIncLittleEndian` exactly `256^N` times to the all-zero nonce of length
`N` gives the all-zero nonce again. -/
theorem C14_nonce_wrap (N : Nat) :
    BytesIncLittleEndian^[256 ^ N] (List.replicate N 0) = List.replicate N 0 := by
  have hb : isBytes (List.replicate N 0) := by
    intro x hx
    rw [List.eq_of_mem_replicate hx]
    decide
  have hv := leValue_iterate_inc (256 ^ N) (List.replicate N 0) hb
  rw [leValue_replicate_zero, List.length_replicate, Nat.zero_add, Nat.mod_self] at hv
  have := eq_replicate_of_leValue_zero _ hv
  rw [iterate_inc_length, List.length_replicate] at this
  exact this

/-! ### The HTTP proxy dial -/

/-- C11. HTTP proxy rejection. Once the TCP connection to the proxy is open,
the CONNECT request is built and the response `resp` to the request written is
read, `dialTcpByHttpProxy` returns a nil error exactly when the status code is
200; for any other status `s` the error is
"DialTcpByHttpProxy error, StatusCode [s]". -/
theorem C11_http_proxy_rejection (env : Net) (proxyHost dstAddr : String) (auth : ProxyAuth)
    (c : Conn) (resp : Response) (hdial : env.Dial proxyHost = Except.ok c)
    (hreq : env.RequestURLError ("http://" ++ dstAddr) = none)
    (hresp : ∀ req, NetOp.write c req ∈ (dialTcpByHttpProxy env proxyHost dstAddr auth).trace →
      env.ReadResponse c [req] = Except.ok resp) :
    ((dialTcpByHttpProxy env proxyHost dstAddr auth).err = none ↔ resp.StatusCode = 200) ∧
    (dialTcpByHttpProxy env proxyHost dstAddr auth).err =
      (if resp.StatusCode = 200 then none
       else some (Error.message
        ("DialTcpByHttpProxy error, StatusCode [" ++ toString resp.StatusCode ++ "]"))) := by
  simp only [dialTcpByHttpProxy, hdial, NewRequest, hreq] at hresp ⊢
  generalize hq : Request.HeaderSet
    (if auth.Enable = true then
      Request.HeaderSet { Method := "CONNECT", URL := "http://" ++ dstAddr, Header := [] }
        "Proxy-Authorization"
        ("Basic " ++ env.EncodeToString (stringBytes (auth.Username ++ ":" ++ auth.Passwd)))
    else { Method := "CONNECT", URL := "http://" ++ dstAddr, Header := [] })
    "User-Agent" "Mozilla/5.0" = req2 at hresp ⊢
  have hr : env.ReadResponse c [req2] = Except.ok resp := by
    apply hresp req2
    cases env.ReadResponse c [req2] with
    | error e => simp
    | ok r => by_cases h : r.StatusCode = 200 <;> simp [h]
  simp only [hr]
  by_cases h : resp.StatusCode = 200
  · simp [h]
  · simp [h]

theorem C11_http_proxy_rejection_witness :
    ((dialTcpByHttpProxy (proxyNet 407) "proxy:8080" "example.com:443"
        { Enable := false, Username := "", Passwd := "" }).err = none ↔ 407 = 200) ∧
    (dialTcpByHttpProxy (proxyNet 407) "proxy:8080" "example.com:443"
        { Enable := false, Username := "", Passwd := "" }).err =
      (if 407 = 200 then none
       else some (Error.message
        ("DialTcpByHttpProxy error, StatusCode [" ++ toString 407 ++ "]"))) :=
  C11_http_proxy_rejection (proxyNet 407) "proxy:8080" "example.com:443"
    { Enable := false, Username := "", Passwd := "" } 1 { StatusCode := 407, Header := [] }
    rfl rfl (fun _ _ => rfl)

/-- C18. HTTP CONNECT request headers. For an `http` proxy URL, once the proxy
is connected, the one request `dialTcpByProxy` writes is a CONNECT for
`http://` followed by the destination address; it carries exactly one
`User-Agent` value, `Mozilla/5.0`, and carries a `Proxy-Authorization` value
exactly when the URL has user-info: `Basic ` followed by the base64 encoding of
`username:password`, with an empty password when the URL gives none. -/
theorem C18_http_connect_request_headers (env : Net) (proxyURL addr : String) (u : URL)
    (c : Conn) (hparse : env.Parse proxyURL = Except.ok u) (hscheme : u.Scheme = "http")
    (hdial : env.Dial u.Host = Except.ok c)
    (hreq : env.RequestURLError ("http://" ++ addr) = none) :
    ∃ req,
      (dialTcpByProxy env proxyURL addr).trace
        = [NetOp.dial u.Host, NetOp.write c req, NetOp.readResponse c] ∧
      req.Method = "CONNECT" ∧ req.URL = "http://" ++ addr ∧
      req.HeaderValues "User-Agent" = ["Mozilla/5.0"] ∧
      req.HeaderValues "Proxy-Authorization" =
        (match u.User with
         | none => []
         | some ui =>
           ["Basic " ++
             env.EncodeToString (stringBytes (ui.username ++ ":" ++ ui.password.getD ""))]) := by
  cases hu : u.User with
  | none =>
    refine ⟨{ Method := "CONNECT", URL := "http://" ++ addr,
              Header := [("User-Agent", "Mozilla/5.0")] }, ?_, rfl, rfl, ?_, ?_⟩
    · simp only [dialTcpByProxy, hparse, hscheme, if_true, dialTcpByHttpProxy, hdial, NewRequest,
        hreq, proxyAuthOf, hu]
      cases env.ReadResponse c _ with
      | error e => simp [Request.HeaderSet]
      | ok resp => by_cases h : resp.StatusCode = 200 <;> simp [Request.HeaderSet, h]
    · simp [Request.HeaderValues]
    · simp [Request.HeaderValues]
  | some ui =>
    refine ⟨{ Method := "CONNECT", URL := "http://" ++ addr,
              Header := [("Proxy-Authorization", "Basic " ++
                  env.EncodeToString (stringBytes (ui.username ++ ":" ++ ui.password.getD ""))),
                ("User-Agent", "Mozilla/5.0")] }, ?_, rfl, rfl, ?_, ?_⟩
    · simp only [dialTcpByProxy, hparse, hscheme, if_true, dialTcpByHttpProxy, hdial, NewRequest,
        hreq, proxyAuthOf, hu]
      cases env.ReadResponse c _ with
      | error e => simp [Request.HeaderSet]
      | ok resp => by_cases h : resp.StatusCode = 200 <;> simp [Request.HeaderSet, h]
    · simp [Request.HeaderValues]
    · simp [Request.HeaderValues]

theorem C18_http_connect_request_headers_witness :
    ∃ req,
      (dialTcpByProxy (proxyNet 200) "http://user:pw@proxy:8080" "example.com:443").trace
        = [NetOp.dial "proxy:8080", NetOp.write 1 req, NetOp.readResponse 1] ∧
      req.Method = "CONNECT" ∧ req.URL = "http://" ++ "example.com:443" ∧
      req.HeaderValues "User-Agent" = ["Mozilla/5.0"] ∧
      req.HeaderValues "Proxy-Authorization" =
        ["Basic " ++ (proxyNet 200).EncodeToString (stringBytes ("user" ++ ":" ++ "pw"))] :=
  C18_http_connect_request_headers (proxyNet 200) "http://user:pw@proxy:8080" "example.com:443"
    { Scheme := "http", Host := "proxy:8080",
      User := some { username := "user", password := some "pw" } } 1 rfl rfl rfl rfl

/-- C20. A proxy that answers the CONNECT with status 407: `dialTcpByHttpProxy`
returns the error "DialTcpByHttpProxy error, StatusCode [407]" together with
the open connection 1, not a nil connection. -/
theorem C20_rejected_dial_returns_connection :
    (dialTcpByHttpProxy (proxyNet 407) "proxy:8080" "example.com:443"
        { Enable := false, Username := "", Passwd := "" }).err
      = some (Error.message "DialTcpByHttpProxy error, StatusCode [407]") ∧
    (dialTcpByHttpProxy (proxyNet 407) "proxy:8080" "example.com:443"
        { Enable := false, Username := "", Passwd := "" }).c = some 1 := by
  decide

/-! ### The pool tiers -/

theorem SyncPool_Get_mem (p : SyncPool) (pick : Option Nat) (b : Buf)
    (h : (p.Get pick).1 = some b) : b ∈ p := by
  unfold SyncPool.Get at h
  cases pick with
  | none => simp at h
  | some i =>
    simp only [List.get?_eq_getElem?] at h
    cases hg : p[i]? with
    | none => simp [hg] at h
    | some x =>
      simp only [hg, Option.some.injEq] at h
      subst h
      exact List.getElem?_mem hg

theorem SyncPool_Get_rest (p : SyncPool) (pick : Option Nat) (b : Buf)
    (h : b ∈ (p.Get pick).2) : b ∈ p := by
  unfold SyncPool.Get at h
  cases pick with
  | none => exact h
  | some i =>
    simp only [List.get?_eq_getElem?] at h
    cases hg : p[i]? with
    | none => simpa [hg] using h
    | some x =>
      simp only [hg] at h
      exact List.mem_of_mem_eraseIdx h

theorem GetBuf_take_inTier (ps : Pools) (pick : Option Nat) (size : Nat)
    (h : PoolsInTier ps) : PoolsInTier (GetBuf.take ps pick size).2 := by
  obtain ⟨h4, h3, h2, h1, h0⟩ := h
  unfold GetBuf.take
  split
  · exact ⟨fun b hb => h4 b (SyncPool_Get_rest _ _ b hb), h3, h2, h1, h0⟩
  · split
    · exact ⟨h4, fun b hb => h3 b (SyncPool_Get_rest _ _ b hb), h2, h1, h0⟩
    · split
      · exact ⟨h4, h3, fun b hb => h2 b (SyncPool_Get_rest _ _ b hb), h1, h0⟩
      · split
        · exact ⟨h4, h3, h2, fun b hb => h1 b (SyncPool_Get_rest _ _ b hb), h0⟩
        · exact ⟨h4, h3, h2, h1, fun b hb => h0 b (SyncPool_Get_rest _ _ b hb)⟩

theorem GetBuf_pools (ps : Pools) (pick : Option Nat) (size : Nat) :
    (GetBuf ps pick size).2 = (GetBuf.take ps pick size).2 := by
  unfold GetBuf
  split
  · rfl
  · split <;> rfl

theorem PutBuf_inTier (ps : Pools) (buf : Buf) (h : PoolsInTier ps) :
    PoolsInTier (PutBuf ps buf) := by
  obtain ⟨h4, h3, h2, h1, h0⟩ := h
  unfold PutBuf SyncPool.Put
  simp only
  split
  · refine ⟨fun b hb => ?_, h3, h2, h1, h0⟩
    rcases List.mem_cons.mp hb with hb | hb
    · subst hb; omega
    · exact h4 b hb
  · split
    · refine ⟨h4, fun b hb => ?_, h2, h1, h0⟩
      rcases List.mem_cons.mp hb with hb | hb
      · subst hb; omega
      · exact h3 b hb
    · split
      · refine ⟨h4, h3, fun b hb => ?_, h1, h0⟩
        rcases List.mem_cons.mp hb with hb | hb
        · subst hb; omega
        · exact h2 b hb
      · split
        · refine ⟨h4, h3, h2, fun b hb => ?_, h0⟩
          rcases List.mem_cons.mp hb with hb | hb
          · subst hb; omega
          · exact h1 b hb
        · refine ⟨h4, h3, h2, h1, fun b hb => ?_⟩
          rcases List.mem_cons.mp hb with hb | hb
          · subst hb; omega
          · exact h0 b hb

theorem run_inTier (ops : List PoolOp) : ∀ ps, PoolsInTier ps → PoolsInTier (ps.run ops) := by
  induction ops with
  | nil => intro ps h; exact h
  | cons op ops ih =>
    intro ps h
    simp only [Pools.run, List.foldl_cons]
    apply ih
    cases op with
    | get size pick =>
      simp only [Pools.step, GetBuf_pools]
      exact GetBuf_take_inTier ps pick size h
    | put buf => exact PutBuf_inTier ps buf h

theorem GetBuf_take_tier (ps : Pools) (pick : Option Nat) (size : Nat) (x : Buf)
    (h : PoolsInTier ps) (hx : (GetBuf.take ps pick size).1 = some x) :
    tierOf x.cap = tierOf size := by
  obtain ⟨h4, h3, h2, h1, h0⟩ := h
  unfold GetBuf.take at hx
  unfold tierOf
  split at hx
  · have := h4 x (SyncPool_Get_mem _ _ x hx)
    rw [if_pos (by omega), if_pos (by omega)]
  · split at hx
    · have := h3 x (SyncPool_Get_mem _ _ x hx)
      rw [if_neg (by omega), if_pos (by omega), if_neg (by omega), if_pos (by omega)]
    · split at hx
      · have := h2 x (SyncPool_Get_mem _ _ x hx)
        rw [if_neg (by omega), if_neg (by omega), if_pos (by omega), if_neg (by omega),
          if_neg (by omega), if_pos (by omega)]
      · split at hx
        · have := h1 x (SyncPool_Get_mem _ _ x hx)
          rw [if_neg (by omega), if_neg (by omega), if_neg (by omega), if_pos (by omega),
            if_neg (by omega), if_neg (by omega), if_neg (by omega), if_pos (by omega)]
        · have := h0 x (SyncPool_Get_mem _ _ x hx)
          rw [if_neg (by omega), if_neg (by omega), if_neg (by omega), if_neg (by omega),
            if_neg (by omega), if_neg (by omega), if_neg (by omega), if_neg (by omega)]

theorem tierOf_le (n : Nat) : tierOf n ≤ 4 := by
  unfold tierOf
  split
  · omega
  · split
    · omega
    · split
      · omega
      · split <;> omega

theorem PutBuf_tier (ps : Pools) (buf : Buf) (t : Nat) (ht : t ≤ 4) :
    (PutBuf ps buf).tier t = if t = tierOf buf.cap then buf :: ps.tier t else ps.tier t := by
  have hcases : t = 0 ∨ t = 1 ∨ t = 2 ∨ t = 3 ∨ t = 4 := by omega
  by_cases c4 : buf.cap ≥ 16 * 1024
  · have e : PutBuf ps buf = { ps with bufPool16k := ps.bufPool16k.Put buf } := by
      simp only [PutBuf, if_pos c4]
    have e' : tierOf buf.cap = 4 := by simp only [tierOf, if_pos c4]
    rw [e, e']
    rcases hcases with rfl | rfl | rfl | rfl | rfl <;> simp [Pools.tier, SyncPool.Put]
  · by_cases c3 : buf.cap ≥ 5 * 1024
    · have e : PutBuf ps buf = { ps with bufPool5k := ps.bufPool5k.Put buf } := by
        simp only [PutBuf, if_neg c4, if_pos c3]
      have e' : tierOf buf.cap = 3 := by simp only [tierOf, if_neg c4, if_pos c3]
      rw [e, e']
      rcases hcases with rfl | rfl | rfl | rfl | rfl <;> simp [Pools.tier, SyncPool.Put]
    · by_cases c2 : buf.cap ≥ 2 * 1024
      · have e : PutBuf ps buf = { ps with bufPool2k := ps.bufPool2k.Put buf } := by
          simp only [PutBuf, if_neg c4, if_neg c3, if_pos c2]
        have e' : tierOf buf.cap = 2 := by simp only [tierOf, if_neg c4, if_neg c3, if_pos c2]
        rw [e, e']
        rcases hcases with rfl | rfl | rfl | rfl | rfl <;> simp [Pools.tier, SyncPool.Put]
      · by_cases c1 : buf.cap ≥ 1 * 1024
        · have e : PutBuf ps buf = { ps with bufPool1k := ps.bufPool1k.Put buf } := by
            simp only [PutBuf, if_neg c4, if_neg c3, if_neg c2, if_pos c1]
          have e' : tierOf buf.cap = 1 := by
            simp only [tierOf, if_neg c4, if_neg c3, if_neg c2, if_pos c1]
          rw [e, e']
          rcases hcases with rfl | rfl | rfl | rfl | rfl <;> simp [Pools.tier, SyncPool.Put]
        · have e : PutBuf ps buf = { ps with bufPool := ps.bufPool.Put buf } := by
            simp only [PutBuf, if_neg c4, if_neg c3, if_neg c2, if_neg c1]
          have e' : tierOf buf.cap = 0 := by
            simp only [tierOf, if_neg c4, if_neg c3, if_neg c2, if_neg c1]
          rw [e, e']
          rcases hcases with rfl | rfl | rfl | rfl | rfl <;> simp [Pools.tier, SyncPool.Put]

theorem GetBuf_take_from_tier (ps : Pools) (pick : Option Nat) (size : Nat) :
    (GetBuf.take ps pick size).1 = ((ps.tier (tierOf size)).Get pick).1 := by
  by_cases c4 : size ≥ 16 * 1024
  · simp [GetBuf.take, tierOf, Pools.tier, if_pos c4]
  · by_cases c3 : size ≥ 5 * 1024
    · simp [GetBuf.take, tierOf, Pools.tier, if_neg c4, if_pos c3]
    · by_cases c2 : size ≥ 2 * 1024
      · simp [GetBuf.take, tierOf, Pools.tier, if_neg c4, if_neg c3, if_pos c2]
      · by_cases c1 : size ≥ 1 * 1024
        · simp [GetBuf.take, tierOf, Pools.tier, if_neg c4, if_neg c3, if_neg c2, if_pos c1]
        · simp [GetBuf.take, tierOf, Pools.tier, if_neg c4, if_neg c3, if_neg c2, if_neg c1]

theorem emptyPools_inTier : PoolsInTier emptyPools := by
  simp [PoolsInTier, emptyPools]

/-- C17. Pool tier invariant. After any sequence of `GetBuf` and `PutBuf`
calls from program start, every buffer held in a pool has a capacity inside
that pool's range; `PutBuf` files a buffer in the pool of the tier of its
capacity and leaves the other pools alone; `GetBuf(size)` takes from the pool
of the tier of `size`, so a recycled buffer it returns was held there and its
capacity lies in the tier of `size`. -/
theorem C17_pool_tier_invariant (ops : List PoolOp) (size : Nat) (pick : Option Nat)
    (x released : Buf)
    (hx : (GetBuf.take (emptyPools.run ops) pick size).1 = some x) (hcap : size ≤ x.cap) :
    PoolsInTier (emptyPools.run ops) ∧
    (∀ t, t ≤ 4 → (PutBuf (emptyPools.run ops) released).tier t =
      if t = tierOf released.cap then released :: (emptyPools.run ops).tier t
      else (emptyPools.run ops).tier t) ∧
    x ∈ (emptyPools.run ops).tier (tierOf size) ∧
    (GetBuf (emptyPools.run ops) pick size).1 = { x with len := size } ∧
    (GetBuf (emptyPools.run ops) pick size).1.cap = x.cap ∧
    tierOf x.cap = tierOf size := by
  have hinv := run_inTier ops emptyPools emptyPools_inTier
  refine ⟨hinv, fun t ht => PutBuf_tier _ released t ht, ?_, ?_, ?_,
    GetBuf_take_tier _ pick size x hinv hx⟩
  · rw [GetBuf_take_from_tier] at hx
    exact SyncPool_Get_mem _ pick x hx
  · simp only [GetBuf, hx, if_neg (by omega : ¬ x.cap < size)]
  · simp only [GetBuf, hx, if_neg (by omega : ¬ x.cap < size)]
    rfl

theorem C17_pool_tier_invariant_witness :
    PoolsInTier (emptyPools.run [PoolOp.put { data := [9, 9, 9], len := 3 }]) ∧
    (GetBuf (emptyPools.run [PoolOp.put { data := [9, 9, 9], len := 3 }]) (some 0) 2).1
      = { data := [9, 9, 9], len := 2 } :=
  ⟨(C17_pool_tier_invariant [PoolOp.put { data := [9, 9, 9], len := 3 }] 2 (some 0)
      { data := [9, 9, 9], len := 3 } { data := [], len := 0 } (by rfl) (by decide)).1,
   (C17_pool_tier_invariant [PoolOp.put { data := [9, 9, 9], len := 3 }] 2 (some 0)
      { data := [9, 9, 9], len := 3 } { data := [], len := 0 } (by rfl) (by decide)).2.2.2.1⟩

/-! ### The held buffer of the reader -/

theorem Read_HeldOK (r : AeadReader) (dst : Bytes) (res : ReadResult) (hr : HeldOK r)
    (h : r.Read dst = some res) : HeldOK res.r := by
  obtain ⟨S, R, nonce, buf, start⟩ := r
  cases buf with
  | some held =>
    obtain ⟨res', h1, _, _, _, _, _, _, _, h9, _⟩ :=
      Read_held S R nonce held start dst (Nat.le_of_lt (hr held rfl))
    rw [h1, Option.some.injEq] at h
    subst h
    exact h9
  | none =>
    unfold AeadReader.Read at h
    simp only at h
    split at h
    · simp only [Option.some.injEq] at h
      subst h
      intro held hh
      simp at hh
    · split at h
      · simp only [Option.some.injEq] at h
        subst h
        intro held hh
        simp at hh
      · split at h
        · simp at h
        · split at h
          · simp only [Option.some.injEq] at h
            subst h
            intro held hh
            simp at hh
          · split at h
            · simp only [Option.some.injEq] at h
              subst h
              intro held hh
              simp at hh
            · split at h
              · rename_i hlt
                simp only [Option.some.injEq] at h
                subst h
                intro held hh
                simp only [Option.some.injEq] at hh
                subst hh
                exact hlt
              · simp only [Option.some.injEq] at h
                subst h
                intro held hh
                simp at hh

theorem ReadAll_HeldOK (dsts : List Bytes) : ∀ (r : AeadReader) (out : Bytes) (r' : AeadReader),
    HeldOK r → r.ReadAll dsts = some (out, r') → HeldOK r' := by
  induction dsts with
  | nil =>
    intro r out r' hr h
    simp only [AeadReader.ReadAll, Option.some.injEq, Prod.mk.injEq] at h
    rw [← h.2]
    exact hr
  | cons dst dsts ih =>
    intro r out r' hr h
    simp only [AeadReader.ReadAll] at h
    cases h1 : r.Read dst with
    | none => simp [h1] at h
    | some res =>
      simp only [h1] at h
      cases h2 : res.r.ReadAll dsts with
      | none => simp [h2] at h
      | some p =>
        obtain ⟨out2, r2⟩ := p
        simp only [h2, Option.some.injEq, Prod.mk.injEq] at h
        rw [← h.2]
        exact ih res.r out2 r2 (Read_HeldOK r dst res hr h1) h2

/-- C19. Reader held-buffer invariant. After any sequence of returning `Read`
calls on a fresh reader, for any cipher and any source bytes, either no buffer
is held or the held buffer has an undelivered byte (`start < len(buf)`); and
while a buffer is held, a `Read` with a non-empty destination returns at least
one byte, the next retained ones, and no error. -/
theorem C19_reader_held_buffer_invariant (S : AEAD) (R : Bytes) (dsts : List Bytes)
    (out : Bytes) (r' : AeadReader) (dst : Bytes)
    (hrun : (NewAeadReader S R).ReadAll dsts = some (out, r')) (hdst : dst ≠ []) :
    (r'.buf = none ∨ ∃ held, r'.buf = some held ∧ r'.start < held.length) ∧
    (∀ held, r'.buf = some held →
      ∃ res, r'.Read dst = some res ∧ 1 ≤ res.n ∧ res.err = none ∧
        res.dst.take res.n = (held.drop r'.start).take dst.length) := by
  have h0 : HeldOK (NewAeadReader S R) := by
    intro held hh
    simp [NewAeadReader] at hh
  have hinv := ReadAll_HeldOK dsts _ out r' h0 hrun
  constructor
  · cases hb : r'.buf with
    | none => exact Or.inl rfl
    | some held => exact Or.inr ⟨held, rfl, hinv held hb⟩
  · intro held hb
    have hst := hinv held hb
    obtain ⟨S', R', nonce', buf', start'⟩ := r'
    simp only at hb hst
    subst hb
    obtain ⟨res, h1, _, _, _, h5, h6, h7, _, _, _⟩ :=
      Read_held S' R' nonce' held start' dst (Nat.le_of_lt hst)
    have : 0 < dst.length := List.length_pos.mpr hdst
    exact ⟨res, h1, by rw [h6]; omega, h5, h7⟩

theorem C19_reader_held_buffer_invariant_witness :
    ∃ res,
      AeadReader.Read
        { S := sampleAead, R := [], nonce := [2, 0], buf := some [1, 2, 3], start := 2 } [0]
        = some res ∧ 1 ≤ res.n ∧ res.err = none ∧
      res.dst.take res.n = ([1, 2, 3].drop 2).take [0].length :=
  (C19_reader_held_buffer_invariant sampleAead [0, 3, 3, 1, 2, 3, 7] [[0, 0]] [1, 2]
    { S := sampleAead, R := [], nonce := [2, 0], buf := some [1, 2, 3], start := 2 } [0]
    (by rfl) (by decide)).2 [1, 2, 3] rfl

/-! ### Chunk length range -/

theorem chunksOf_pos (src : Bytes) (hne : src ≠ []) : ∀ c ∈ chunksOf src, 1 ≤ c.length := by
  by_cases h : src.length > AeadMaxTextLength
  · have hl := handleLength_le src.length h
    have hp := handleLength_pos src.length
    rw [chunksOf_big src h]
    intro c hc
    rcases List.mem_append.mp hc with hc | hc
    · refine chunksOf_pos _ ?_ c hc
      intro hnil
      have := congrArg List.length hnil
      simp only [List.length_take, List.length_nil] at this
      omega
    · rw [List.mem_singleton] at hc
      subst hc
      simp only [List.length_drop]
      omega
  · rw [chunksOf_small src h]
    intro c hc
    rw [List.mem_singleton] at hc
    subst hc
    exact List.length_pos.mpr hne
termination_by src.length
decreasing_by
  have := handleLength_pos src.length
  simp only [List.length_take]
  rw [AeadMaxTextLength_eq] at *
  omega

theorem beValue_PutUint16 (v : Nat) (h : v < 65536) : beValue (PutUint16 v) = v := by
  simp only [beValue, PutUint16, List.foldl]
  omega

/-- C12, as stated, fails: a `Write` of the empty input emits one chunk whose
header declares the payload length 0. -/
theorem C12_empty_write_declares_zero :
    ((NewAeadWriter sampleAead recordingSink []).Write emptyEnv []).w.sink
      = [sampleAead.Seal [0, 0] (PutUint16 0) [] ++ sampleAead.Seal [1, 0] [] []] ∧
    PutUint16 0 = [0, 0] ∧ beValue (PutUint16 0) = 0 ∧
    ¬ (1 ≤ beValue (PutUint16 0) ∧ beValue (PutUint16 0) ≤ 16383) := by
  rw [AeadWriter.Write, write_small _ _ _ (by decide)]
  decide

/-- C12, amended. Every chunk that a `Write` of a non-empty input emits
declares in its header a payload length between 1 and 16383 inclusive, the
length of its text; a `Write` of the empty input emits one chunk with an
empty text. -/
theorem C12_chunk_payload_length_range (S : AEAD) (nonce : Bytes) (log : List Bytes)
    (env : PoolEnv) (src : Bytes) (hS : S.FixedOverhead) (hne : src ≠ []) :
    (∃ chunks : List Bytes,
      (AeadWriter.Write { S := S, W := recordingSink, sink := log, nonce := nonce } env src).w.sink
        = log ++ frames S nonce chunks ∧
      chunks.flatten = src ∧
      ∀ c ∈ chunks, 1 ≤ c.length ∧ c.length ≤ 16383 ∧ beValue (PutUint16 c.length) = c.length) ∧
    (AeadWriter.Write { S := S, W := recordingSink, sink := log, nonce := nonce } env []).w.sink
      = log ++ frames S nonce [[]] := by
  constructor
  · refine ⟨chunksOf src, ?_, chunksOf_join src, ?_⟩
    · rw [AeadWriter.Write,
        (write_spec { S := S, W := recordingSink, sink := log, nonce := nonce } env src hS).1,
        feedSink_recording]
    · intro c hc
      have h1 := chunksOf_pos src hne c hc
      have h2 := chunksOf_le src c hc
      rw [AeadMaxTextLength_eq] at h2
      exact ⟨h1, h2, beValue_PutUint16 _ (by omega)⟩
  · rw [AeadWriter.Write,
      (write_spec { S := S, W := recordingSink, sink := log, nonce := nonce } env [] hS).1,
      feedSink_recording, chunksOf_small [] (by decide)]

theorem C12_chunk_payload_length_range_witness :
    (∃ chunks : List Bytes,
      (AeadWriter.Write
          { S := sampleAead, W := recordingSink, sink := [], nonce := [0, 0] } emptyEnv
          [1, 2, 3]).w.sink
        = [] ++ frames sampleAead [0, 0] chunks ∧
      chunks.flatten = [1, 2, 3] ∧
      ∀ c ∈ chunks, 1 ≤ c.length ∧ c.length ≤ 16383 ∧ beValue (PutUint16 c.length) = c.length) ∧
    (AeadWriter.Write
        { S := sampleAead, W := recordingSink, sink := [], nonce := [0, 0] } emptyEnv []).w.sink
      = [] ++ frames sampleAead [0, 0] [[]] :=
  C12_chunk_payload_length_range sampleAead [0, 0] [] emptyEnv [1, 2, 3]
    sampleAead_fixedOverhead (by decide)

/-! ### Close -/

/-- C13, as stated, fails: on a sink whose `Close` fails, `Close` of the writer
returns that error. -/
theorem C13_close_returns_sink_error :
    ((NewAeadWriter sampleAead recordingSink []).Close (some failingClose)).2
      = some (Error.message "close failed") ∧
    ((NewAeadWriter sampleAead recordingSink []).Close (some failingClose)).2 ≠ none := by
  decide

/-- C13, amended. `Close` returns what the sink's `Close` returns when the
sink supports closing, having closed it, and returns nil and does nothing
otherwise; the cipher and the nonce are untouched. -/
theorem C13_close_returns_sink_result {σ : Type} (w : AeadWriter σ)
    (closer : Option (σ → σ × Option Error)) :
    (w.Close closer).2 = (match closer with
      | some c => (c w.sink).2
      | none => none) ∧
    (w.Close closer).1.sink = (match closer with
      | some c => (c w.sink).1
      | none => w.sink) ∧
    (w.Close closer).1.nonce = w.nonce ∧
    ((w.Close closer).2 ≠ none ↔ ∃ c, closer = some c ∧ (c w.sink).2 ≠ none) := by
  cases closer with
  | none => simp [AeadWriter.Close]
  | some c => simp [AeadWriter.Close]

/-! ### The multiplexer -/

theorem mem_insertEntry (e y : MuxEntry) (l : List MuxEntry) :
    y ∈ insertEntry e l ↔ y = e ∨ y ∈ l := by
  induction l with
  | nil => simp [insertEntry]
  | cons x xs ih =>
    simp only [insertEntry]
    split
    · simp only [List.mem_cons, ih]
      tauto
    · simp only [List.mem_cons]

theorem insertEntry_pairwise (e : MuxEntry) (l : List MuxEntry)
    (hl : l.Pairwise MuxEntry.before) (hid : ∀ x ∈ l, x.id < e.id) :
    (insertEntry e l).Pairwise MuxEntry.before := by
  induction l with
  | nil => simp [insertEntry]
  | cons x xs ih =>
    obtain ⟨hx, hxs⟩ := List.pairwise_cons.mp hl
    have hxid : x.id < e.id := hid x (by simp)
    simp only [insertEntry]
    split
    · rename_i hle
      refine List.pairwise_cons.mpr ⟨?_, ih hxs (fun y hy => hid y (by simp [hy]))⟩
      intro y hy
      rcases (mem_insertEntry e y xs).mp hy with h | h
      · rw [h]
        refine ⟨?_, by omega⟩
        by_cases h1 : x.priority < e.priority
        · exact Or.inl h1
        · exact Or.inr ⟨by omega, hxid⟩
      · exact hx y h
    · rename_i hgt
      have hlt : e.priority < x.priority := by omega
      refine List.pairwise_cons.mpr ⟨?_, hl⟩
      intro y hy
      rcases List.mem_cons.mp hy with h | h
      · rw [h]
        exact ⟨Or.inl hlt, by omega⟩
      · have hy1 := hx y h
        have hyid := hid y (by simp [h])
        refine ⟨Or.inl ?_, by omega⟩
        rcases hy1.1 with h2 | h2
        · omega
        · omega

theorem map_pairwise_before (f : MuxEntry → MuxEntry) (l : List MuxEntry)
    (hf : ∀ e, (f e).id = e.id ∧ (f e).priority = e.priority)
    (hl : l.Pairwise MuxEntry.before) : (l.map f).Pairwise MuxEntry.before := by
  refine List.Pairwise.map f ?_ hl
  intro a b hab
  simp only [MuxEntry.before, (hf a).1, (hf a).2, (hf b).1, (hf b).2]
  exact hab

theorem map_ids_lt (f : MuxEntry → MuxEntry) (l : List MuxEntry) (n : Nat)
    (hf : ∀ e, (f e).id = e.id ∧ (f e).priority = e.priority)
    (hl : ∀ e ∈ l, e.id < n) : ∀ e ∈ l.map f, e.id < n := by
  intro e he
  obtain ⟨a, ha, rfl⟩ := List.mem_map.mp he
  rw [(hf a).1]
  exact hl a ha

theorem step_Ordered (m : Mux) (op : MuxOp) (h : m.Ordered) : (m.step op).Ordered := by
  obtain ⟨h1, h2⟩ := h
  cases op with
  | listen priority needBytesNum fn =>
    refine ⟨insertEntry_pairwise _ _ h1 (fun x hx => h2 x hx), ?_⟩
    intro e he
    simp only [Mux.step, Mux.Listen] at he ⊢
    rcases (mem_insertEntry _ e m.lns).mp he with h | h
    · rw [h]
      simp
    · have := h2 e h
      omega
  | defaultListener =>
    simp only [Mux.step, Mux.DefaultListener]
    split
    · exact ⟨h1, h2⟩
    · exact ⟨h1, h2⟩
  | close id =>
    have hf : ∀ e : MuxEntry,
        ((fun e : MuxEntry => if e.id = id then { e with closed := true } else e) e).id = e.id ∧
        ((fun e : MuxEntry => if e.id = id then { e with closed := true } else e) e).priority
          = e.priority := by
      intro e
      simp only
      split <;> exact ⟨rfl, rfl⟩
    exact ⟨map_pairwise_before _ _ hf h1, map_ids_lt _ _ _ hf h2⟩
  | conn c =>
    simp only [Mux.step, Mux.serveConn]
    split
    · exact ⟨h1, h2⟩
    · split
      · rename_i w _
        have hf : ∀ e : MuxEntry,
            ((fun e : MuxEntry =>
              if e.id = w.id then { e with queue := e.queue ++ [m.wrap c] } else e) e).id = e.id ∧
            ((fun e : MuxEntry =>
              if e.id = w.id then { e with queue := e.queue ++ [m.wrap c] } else e) e).priority
              = e.priority := by
          intro e
          simp only
          split <;> exact ⟨rfl, rfl⟩
        exact ⟨map_pairwise_before _ _ hf h1, map_ids_lt _ _ _ hf h2⟩
      · split
        · exact ⟨h1, h2⟩
        · exact ⟨h1, h2⟩

theorem run_Ordered (ops : List MuxOp) : ∀ m : Mux, m.Ordered → (m.run ops).Ordered := by
  induction ops with
  | nil => intro m h; exact h
  | cons op ops ih =>
    intro m h
    simp only [Mux.run, List.foldl_cons]
    exact ih _ (step_Ordered m op h)

theorem NewMux_Ordered : NewMux.Ordered := by
  simp [Mux.Ordered, NewMux]

theorem wrap_stream (m : Mux) (c : RawConn) : (m.wrap c).stream = c.incoming := by
  simp [Mux.wrap, SharedConn.stream]

theorem Ordered_id_inj (m : Mux) (h : m.Ordered) (x w : MuxEntry) (hx : x ∈ m.lns)
    (hw : w ∈ m.lns) (hid : x.id = w.id) : x = w := by
  by_contra hne
  have hp : m.lns.Pairwise (fun a b => a.id ≠ b.id) := h.1.imp (fun hab => hab.2)
  exact List.Pairwise.forall (fun a b hab => fun hba => hab hba.symm) hp hx hw hne hid

/-- Routing of a connection that an open rule accepts, on a multiplexer whose
rules are in evaluation order. -/
theorem serveConn_listener (m : Mux) (hm : m.Ordered) (c : RawConn) (e : MuxEntry)
    (hpeek : c.peekError = false) (he : e ∈ m.lns) (hacc : e.accepts c.incoming = true) :
    ∃ w, w ∈ m.lns ∧ w.accepts c.incoming = true ∧
      (m.serveConn c).2 = Outcome.listener w.id ∧
      (∀ e' ∈ m.lns, e'.accepts c.incoming = true →
        e' = w ∨ w.priority < e'.priority ∨ (w.priority = e'.priority ∧ w.id < e'.id)) ∧
      (∀ x ∈ m.lns, x.id = w.id → x = w) ∧
      (m.serveConn c).1.lns = m.lns.map (fun x =>
        if x.id = w.id then { x with queue := x.queue ++ [m.wrap c] } else x) ∧
      (m.serveConn c).1.defaultLn = m.defaultLn ∧
      (m.wrap c).stream = c.incoming := by
  cases hf : m.lns.find? (fun e => e.accepts c.incoming) with
  | none =>
    have := List.find?_eq_none.mp hf e he
    exact absurd hacc this
  | some w =>
    obtain ⟨hwacc, as, bs, hsplit, has⟩ := List.find?_eq_some.mp hf
    have hw : w ∈ m.lns := by rw [hsplit]; simp
    refine ⟨w, hw, hwacc, ?_, ?_, fun x hx hid => Ordered_id_inj m hm x w hx hw hid, ?_, ?_,
      wrap_stream m c⟩
    · simp only [Mux.serveConn, hpeek, hf]
      rfl
    · intro e' he' hacc'
      rw [hsplit] at he'
      have hp := hm.1
      rw [hsplit] at hp
      obtain ⟨_, hp2, _⟩ := List.pairwise_append.mp hp
      obtain ⟨hwb, _⟩ := List.pairwise_cons.mp hp2
      rcases List.mem_append.mp he' with h | h
      · have := has e' h
        simp [hacc'] at this
      · rcases List.mem_cons.mp h with h | h
        · exact Or.inl h
        · exact Or.inr (hwb e' h).1
    · simp only [Mux.serveConn, hpeek, hf]
      rfl
    · simp only [Mux.serveConn, hpeek, hf]
      rfl

/-- C15. Mux priority routing (on the multiplexer as the specification
describes it). After any sequence of registrations, closings and earlier
connections, a connection whose prefix is accepted by at least one open rule
is pushed to the listener of one such rule `w`; every other open rule that
accepts it has a larger priority value than `w`, or the same and a later
registration; the queue of no other rule and not the default queue changes,
and the pushed connection carries the whole byte stream. -/
theorem C15_mux_priority_routing (ops : List MuxOp) (c : RawConn) (e : MuxEntry)
    (hpeek : c.peekError = false) (he : e ∈ (NewMux.run ops).lns)
    (hacc : e.accepts c.incoming = true) :
    ∃ w, w ∈ (NewMux.run ops).lns ∧ w.accepts c.incoming = true ∧
      ((NewMux.run ops).serveConn c).2 = Outcome.listener w.id ∧
      (∀ e' ∈ (NewMux.run ops).lns, e'.accepts c.incoming = true →
        e' = w ∨ w.priority < e'.priority ∨ (w.priority = e'.priority ∧ w.id < e'.id)) ∧
      (∀ x ∈ (NewMux.run ops).lns, x.id = w.id → x = w) ∧
      ((NewMux.run ops).serveConn c).1.lns = (NewMux.run ops).lns.map (fun x =>
        if x.id = w.id then { x with queue := x.queue ++ [(NewMux.run ops).wrap c] } else x) ∧
      ((NewMux.run ops).serveConn c).1.defaultLn = (NewMux.run ops).defaultLn ∧
      ((NewMux.run ops).wrap c).stream = c.incoming :=
  serveConn_listener (NewMux.run ops) (run_Ordered ops NewMux NewMux_Ordered) c e hpeek he hacc

theorem C15_mux_priority_routing_witness :
    (∃ w, w ∈ (NewMux.run [MuxOp.listen 0 2 firstByteIs1, MuxOp.listen 1 2 firstByteIs1]).lns ∧
      w.accepts [49, 49, 49, 10] = true ∧
      ((NewMux.run [MuxOp.listen 0 2 firstByteIs1, MuxOp.listen 1 2 firstByteIs1]).serveConn
        { incoming := [49, 49, 49, 10], peekError := false }).2 = Outcome.listener w.id ∧
      (∀ e' ∈ (NewMux.run [MuxOp.listen 0 2 firstByteIs1, MuxOp.listen 1 2 firstByteIs1]).lns,
        e'.accepts [49, 49, 49, 10] = true →
        e' = w ∨ w.priority < e'.priority ∨ (w.priority = e'.priority ∧ w.id < e'.id)) ∧
      (∀ x ∈ (NewMux.run [MuxOp.listen 0 2 firstByteIs1, MuxOp.listen 1 2 firstByteIs1]).lns,
        x.id = w.id → x = w) ∧
      ((NewMux.run [MuxOp.listen 0 2 firstByteIs1, MuxOp.listen 1 2 firstByteIs1]).serveConn
        { incoming := [49, 49, 49, 10], peekError := false }).1.lns
        = (NewMux.run [MuxOp.listen 0 2 firstByteIs1, MuxOp.listen 1 2 firstByteIs1]).lns.map
          (fun x =>
            if x.id = w.id then
              { x with queue := x.queue ++
                  [(NewMux.run [MuxOp.listen 0 2 firstByteIs1,
                      MuxOp.listen 1 2 firstByteIs1]).wrap
                    { incoming := [49, 49, 49, 10], peekError := false }] }
            else x) ∧
      ((NewMux.run [MuxOp.listen 0 2 firstByteIs1, MuxOp.listen 1 2 firstByteIs1]).serveConn
        { incoming := [49, 49, 49, 10], peekError := false }).1.defaultLn
        = (NewMux.run [MuxOp.listen 0 2 firstByteIs1, MuxOp.listen 1 2 firstByteIs1]).defaultLn ∧
      ((NewMux.run [MuxOp.listen 0 2 firstByteIs1, MuxOp.listen 1 2 firstByteIs1]).wrap
        { incoming := [49, 49, 49, 10], peekError := false }).stream = [49, 49, 49, 10]) ∧
    ((NewMux.run [MuxOp.listen 0 2 firstByteIs1, MuxOp.listen 1 2 firstByteIs1]).serveConn
      { incoming := [49, 49, 49, 10], peekError := false }).2 = Outcome.listener 0 ∧
    ((NewMux.run [MuxOp.listen 0 2 firstByteIs1, MuxOp.listen 1 2 firstByteIs1,
        MuxOp.close 0, MuxOp.close 1]).serveConn
      { incoming := [49, 49, 49, 10], peekError := false }).2 = Outcome.closed ∧
    ((NewMux.run [MuxOp.listen 0 2 firstByteIs1, MuxOp.listen 1 2 firstByteIs1,
        MuxOp.close 0, MuxOp.close 1, MuxOp.listen 0 2 firstByteIs1,
        MuxOp.listen 1 2 firstByteIs2]).serveConn
      { incoming := [49, 49, 49, 10], peekError := false }).2 = Outcome.listener 2 :=
  ⟨C15_mux_priority_routing [MuxOp.listen 0 2 firstByteIs1, MuxOp.listen 1 2 firstByteIs1]
      { incoming := [49, 49, 49, 10], peekError := false }
      { id := 1, priority := 1, needBytesNum := 2, matchFn := firstByteIs1, closed := false,
        queue := [] }
      rfl (List.Mem.tail _ (List.Mem.head _)) rfl,
   by decide, by decide, by decide⟩

theorem SharedConn_Read_stream (sc : SharedConn) (n : Nat) :
    (sc.Read n).1 ++ (sc.Read n).2.stream = sc.stream := by
  unfold SharedConn.Read SharedConn.stream
  split
  · simp only
    rw [← List.append_assoc, List.take_append_drop]
  · rename_i h
    have hb : sc.buffered = [] := by simpa using h
    simp only [hb, List.nil_append]
    rw [List.take_append_drop]

theorem SharedConn_Read_progress (sc : SharedConn) (n : Nat) (hn : 0 < n) :
    (sc.Read n).2.stream.length ≤ sc.stream.length - 1 := by
  unfold SharedConn.Read SharedConn.stream
  split
  · rename_i h
    have : 0 < sc.buffered.length := List.length_pos.mpr h
    simp only [List.length_append, List.length_drop]
    omega
  · rename_i h
    have hb : sc.buffered = [] := by simpa using h
    simp only [hb, List.nil_append, List.length_drop]
    omega

theorem SharedConn_ReadAll_stream (sizes : List Nat) : ∀ sc : SharedConn,
    (sc.ReadAll sizes).1 ++ (sc.ReadAll sizes).2.stream = sc.stream ∧
    ((∀ n ∈ sizes, 0 < n) →
      (sc.ReadAll sizes).2.stream.length ≤ sc.stream.length - sizes.length) := by
  induction sizes with
  | nil => intro sc; simp [SharedConn.ReadAll]
  | cons n ns ih =>
    intro sc
    obtain ⟨h1, h2⟩ := ih (sc.Read n).2
    simp only [SharedConn.ReadAll]
    constructor
    · rw [List.append_assoc, h1, SharedConn_Read_stream]
    · intro hpos
      have a := h2 (fun k hk => hpos k (by simp [hk]))
      have b := SharedConn_Read_progress sc n (hpos n (by simp))
      simp only [List.length_cons]
      omega

/-- C16. Mux default fallback (on the multiplexer as the specification
describes it). A connection that no rule accepts, on a multiplexer with a
default listener, is pushed to the default listener and to no rule; the pushed
connection carries the whole original byte stream, peeked bytes included:
successive reads return it in order and completely, and the echo server of the
test replies with its first line. -/
theorem C16_mux_default_fallback (m : Mux) (c : RawConn) (q : List SharedConn)
    (sizes : List Nat) (hpeek : c.peekError = false) (hdef : m.defaultLn = some q)
    (hno : ∀ e ∈ m.lns, e.accepts c.incoming = false) :
    (m.serveConn c).2 = Outcome.defaultListener ∧
    (m.serveConn c).1.defaultLn = some (q ++ [m.wrap c]) ∧
    (m.serveConn c).1.lns = m.lns ∧
    (m.wrap c).stream = c.incoming ∧
    ((m.wrap c).ReadAll sizes).1 ++ ((m.wrap c).ReadAll sizes).2.stream = c.incoming ∧
    ((∀ n ∈ sizes, 0 < n) → c.incoming.length ≤ sizes.length →
      ((m.wrap c).ReadAll sizes).1 = c.incoming) ∧
    echoReply (m.wrap c) = ReadString 10 c.incoming := by
  have hf : m.lns.find? (fun e => e.accepts c.incoming) = none := by
    rw [List.find?_eq_none]
    intro x hx
    simp [hno x hx]
  obtain ⟨r1, r2⟩ := SharedConn_ReadAll_stream sizes (m.wrap c)
  rw [wrap_stream] at r1 r2
  refine ⟨?_, ?_, ?_, wrap_stream m c, r1, ?_, ?_⟩
  · simp only [Mux.serveConn, hpeek, hf, hdef]
    rfl
  · simp only [Mux.serveConn, hpeek, hf, hdef]
    rfl
  · simp only [Mux.serveConn, hpeek, hf, hdef]
    rfl
  · intro hpos hlen
    have h := r2 hpos
    have hnil : ((m.wrap c).ReadAll sizes).2.stream = [] :=
      List.length_eq_zero.mp (by omega)
    rw [hnil, List.append_nil] at r1
    exact r1
  · rw [echoReply, wrap_stream]

theorem C16_mux_default_fallback_witness :
    ((NewMux.run [MuxOp.listen 0 1 httpsMatch, MuxOp.listen 0 2 firstByteIs1,
        MuxOp.defaultListener]).serveConn
      { incoming := [116, 101, 115, 116, 32, 101, 99, 104, 111, 10], peekError := false }).2
      = Outcome.defaultListener ∧
    ((NewMux.run [MuxOp.listen 0 1 httpsMatch, MuxOp.listen 0 2 firstByteIs1,
        MuxOp.defaultListener]).serveConn
      { incoming := [116, 101, 115, 116, 32, 101, 99, 104, 111, 10],
        peekError := false }).1.defaultLn
      = some [{ buffered := [116, 101], sock := [115, 116, 32, 101, 99, 104, 111, 10] }] ∧
    (((NewMux.run [MuxOp.listen 0 1 httpsMatch, MuxOp.listen 0 2 firstByteIs1,
        MuxOp.defaultListener]).wrap
      { incoming := [116, 101, 115, 116, 32, 101, 99, 104, 111, 10],
        peekError := false }).ReadAll [1, 4, 2, 1, 1, 1, 1, 1, 1, 1024]).1
      = [116, 101, 115, 116, 32, 101, 99, 104, 111, 10] ∧
    echoReply ((NewMux.run [MuxOp.listen 0 1 httpsMatch, MuxOp.listen 0 2 firstByteIs1,
        MuxOp.defaultListener]).wrap
      { incoming := [116, 101, 115, 116, 32, 101, 99, 104, 111, 10], peekError := false })
      = some [116, 101, 115, 116, 32, 101, 99, 104, 111, 10] := by
  have h := C16_mux_default_fallback
    (NewMux.run [MuxOp.listen 0 1 httpsMatch, MuxOp.listen 0 2 firstByteIs1,
      MuxOp.defaultListener])
    { incoming := [116, 101, 115, 116, 32, 101, 99, 104, 111, 10], peekError := false } []
    [1, 4, 2, 1, 1, 1, 1, 1, 1, 1024] rfl rfl
    (by
      intro e he
      have hmem : e ∈
          [({ id := 0, priority := 0, needBytesNum := 1, matchFn := httpsMatch, closed := false,
              queue := [] } : MuxEntry),
           { id := 1, priority := 0, needBytesNum := 2, matchFn := firstByteIs1,
             closed := false, queue := [] }] := he
      rcases List.mem_cons.mp hmem with h1 | h1
      · rw [h1]; rfl
      · rw [List.mem_singleton.mp h1]; rfl)
  exact ⟨h.1, h.2.1, h.2.2.2.2.2.1 (by decide) (by decide), h.2.2.2.2.2.2.trans (by decide)⟩

end Golib
